import Mathlib

/-!
Verification of the LRU-K replacer of src/src/buffer/lru_k_replacer.cpp.

The C++ class LRUKReplacer is shallowly embedded as the structure
RState below.  The unordered maps hist_, record_cnt_ and evictable_
become total functions from frame ids (Nat), with the default value of
the mapped type returned for absent keys, exactly as operator[] on an
unordered_map default-constructs absent entries.  The std::list
new_frames_ (cold index) and k_frames_ (warm index) become Lean lists;
the iterator maps new_pos_ and k_pos_ always point at the unique node
of a given frame, so erasing through them is modelled by erasing the
first node carrying that frame id.  Locks are dropped: every public
operation is serialized, so each C++ method becomes a pure state
transformer.
-/

namespace LRUK

/-- Pointwise update of a total map, modelling assignment through
unordered_map::operator[]. -/
def upd {α : Type} (m : Nat → α) (x : Nat) (v : α) : Nat → α :=
  fun y => if y = x then v else m y

/-- Error kinds thrown by the C++ code: the frame-id range check in
RecordAccess and Remove, and the pinned-frame check in Remove. -/
inductive Err where
  | invalidFrame
  | illegalRemoval
deriving DecidableEq

/-- State of LRUKReplacer: one field per C++ data member (latch_ and the
two iterator maps excepted, as explained in the file header). -/
structure RState where
  k : Nat
  replacer_size : Nat
  max_size : Nat
  curr_size : Nat
  current_timestamp : Nat
  hist : Nat → List Nat
  record_cnt : Nat → Nat
  evictable : Nat → Bool
  new_frames : List Nat
  k_frames : List (Nat × Nat)

/-- Constructor LRUKReplacer(num_frames, k). -/
def init (num_frames k : Nat) : RState :=
  { k := k
    replacer_size := num_frames
    max_size := num_frames
    curr_size := 0
    current_timestamp := 0
    hist := fun _ => []
    record_cnt := fun _ => 0
    evictable := fun _ => false
    new_frames := []
    k_frames := [] }

/-- Size(): returns curr_size_. -/
def Size (s : RState) : Nat := s.curr_size

/-- The cold-index loop of Evict: walk the given list and return the
first evictable frame. -/
def scanCold (ev : Nat → Bool) : List Nat → Option Nat
  | [] => none
  | f :: fs => if ev f then some f else scanCold ev fs

/-- The warm-index loop of Evict: walk the given list of (frame, kth
timestamp) pairs and return the first pair whose frame is evictable. -/
def scanWarm (ev : Nat → Bool) : List (Nat × Nat) → Option (Nat × Nat)
  | [] => none
  | p :: ps => if ev p.1 then some p else scanWarm ev ps

/-- Erase the first occurrence of frame f from the cold list, modelling
new_frames_.erase(new_pos_[f]). -/
def eraseId (f : Nat) : List Nat → List Nat
  | [] => []
  | g :: gs => if g = f then gs else g :: eraseId f gs

/-- Erase the first pair keyed by frame f from the warm list, modelling
k_frames_.erase at the node k_pos_[f] points to. -/
def eraseFrame (f : Nat) : List (Nat × Nat) → List (Nat × Nat)
  | [] => []
  | p :: ps => if p.1 = f then ps else p :: eraseFrame f ps

/-- The upper_bound-plus-insert step of RecordAccess: place x before the
first entry with a strictly larger timestamp, i.e. after every entry
whose timestamp is at most that of x (CmpTimestamp compares seconds). -/
def insertUB (x : Nat × Nat) : List (Nat × Nat) → List (Nat × Nat)
  | [] => [x]
  | y :: ys => if x.2 < y.2 then x :: y :: ys else y :: insertUB x ys

/-- Evict(frame_id): translated line by line from the C++ source.  The
returned option is the out-parameter together with the boolean result;
the state is the object after the call. -/
def evict (s : RState) : RState × Option Nat :=
  if Size s = 0 then (s, none)
  else
    match scanCold s.evictable s.new_frames.reverse with
    | some v =>
        ({ s with record_cnt := upd s.record_cnt v 0
                  new_frames := eraseId v s.new_frames
                  hist := upd s.hist v []
                  curr_size := s.curr_size - 1 }, some v)
    | none =>
        match scanWarm s.evictable s.k_frames with
        | some p =>
            ({ s with record_cnt := upd s.record_cnt p.1 0
                      k_frames := eraseFrame p.1 s.k_frames
                      hist := upd s.hist p.1 []
                      curr_size := s.curr_size - 1 }, some p.1)
        | none => (s, none)

/-- Lines 56-58 of RecordAccess: advance the clock, push the new
timestamp on the frame's history, bump the access count. -/
def touch (s : RState) (f : Nat) : RState :=
  { s with current_timestamp := s.current_timestamp + 1
           hist := upd s.hist f (s.hist f ++ [s.current_timestamp + 1])
           record_cnt := upd s.record_cnt f (s.record_cnt f + 1) }

/-- The cnt == 1 block of RecordAccess: if the replacer is full, evict a
victim (discarding the result), then mark the frame evictable, grow the
size and push the frame on the front of the cold list. -/
def enroll (s : RState) (f : Nat) : RState :=
  if s.curr_size = s.replacer_size then
    { (evict s).1 with evictable := upd (evict s).1.evictable f true
                       curr_size := (evict s).1.curr_size + 1
                       new_frames := f :: (evict s).1.new_frames }
  else
    { s with evictable := upd s.evictable f true
             curr_size := s.curr_size + 1
             new_frames := f :: s.new_frames }

/-- The cnt == k block of RecordAccess: move the frame from the cold
list into the warm list at its upper_bound position, keyed by the front
(oldest entry) of its history. -/
def promote (s : RState) (f : Nat) : RState :=
  let s3 : RState := { s with new_frames := eraseId f s.new_frames }
  { s3 with k_frames := insertUB (f, (s3.hist f).headD 0) s3.k_frames }

/-- The cnt > k block of RecordAccess: drop the oldest history entry,
then remove the frame's warm entry and reinsert it at the upper_bound
position given by the new front of the history. -/
def reposition (s : RState) (f : Nat) : RState :=
  let s3 : RState := { s with hist := upd s.hist f (s.hist f).tail }
  let s4 : RState := { s3 with k_frames := eraseFrame f s3.k_frames }
  { s4 with k_frames := insertUB (f, (s4.hist f).headD 0) s4.k_frames }

/-- RecordAccess(frame_id): translated from the C++ source using the
block functions above.  Note that the range check is
frame_id > replacer_size_ (strict), the three count branches are
sequential ifs (so with k = 1 a first access runs both the cnt == 1 and
the cnt == k blocks), and the embedded Evict call inside the cnt == 1
block is the evict function above.  The access_type parameter of the
C++ method is unused by its body and is dropped here. -/
def recordAccess (s : RState) (f : Nat) : RState × Option Err :=
  if s.replacer_size < f then (s, some Err.invalidFrame)
  else
    let s1 := touch s f
    let cnt := s1.record_cnt f
    let s2 := if cnt = 1 then enroll s1 f else s1
    if cnt = s2.k then (promote s2 f, none)
    else if s2.k < cnt then (reposition s2 f, none)
    else (s2, none)

/-- SetEvictable(frame_id, set_evictable): translated line by line from
the C++ source (the function also moves the otherwise unused max_size_
member). -/
def setEvictable (s : RState) (f : Nat) (v : Bool) : RState :=
  if s.record_cnt f = 0 then s
  else
    let status := s.evictable f
    let sA : RState := { s with evictable := upd s.evictable f v }
    let sB : RState :=
      if status = true ∧ v = false then
        { sA with max_size := sA.max_size - 1, curr_size := sA.curr_size - 1 }
      else sA
    if status = false ∧ v = true then
      { sB with max_size := sB.max_size + 1, curr_size := sB.curr_size + 1 }
    else sB

/-- Remove(frame_id): translated line by line from the C++ source. -/
def remove (s : RState) (f : Nat) : RState × Option Err :=
  if s.replacer_size < f then (s, some Err.invalidFrame)
  else
    let cnt := s.record_cnt f
    if cnt = 0 then (s, none)
    else if s.evictable f = false then (s, some Err.illegalRemoval)
    else if cnt < s.k then
      ({ s with new_frames := eraseId f s.new_frames
                record_cnt := upd s.record_cnt f 0
                hist := upd s.hist f []
                curr_size := s.curr_size - 1 }, none)
    else
      ({ s with k_frames := eraseFrame f s.k_frames
                record_cnt := upd s.record_cnt f 0
                hist := upd s.hist f []
                curr_size := s.curr_size - 1 }, none)

/-- States reachable from a freshly constructed replacer (capacity and k
at least 1, the construction contract of the spec) through any sequence
of public operations. -/
inductive Reachable : RState → Prop
  | base (cap k : Nat) (hcap : 1 ≤ cap) (hk : 1 ≤ k) : Reachable (init cap k)
  | record (s : RState) (f : Nat) : Reachable s → Reachable (recordAccess s f).1
  | evictStep (s : RState) : Reachable s → Reachable (evict s).1
  | setEv (s : RState) (f : Nat) (v : Bool) : Reachable s → Reachable (setEvictable s f v)
  | removeStep (s : RState) (f : Nat) : Reachable s → Reachable (remove s f).1

/-- Example state: capacity 2, k 2, one access to frame 0. -/
def ex1 : RState := (recordAccess (init 2 2) 0).1

/-- Example state: ex1 followed by one access to frame 1 (both frames
cold, size 2). -/
def ex2 : RState := (recordAccess ex1 1).1

/-- Example state: ex1 followed by a second access to frame 0 (frame 0
warm, size 1). -/
def ex5 : RState := (recordAccess ex1 0).1

/-- Example state: ex1 followed by one access to frame 2 (admitted by
the strict range check); the replacer is full, frame 1 still unseen. -/
def ex7 : RState := (recordAccess ex1 2).1

/-- Internal invariant of the replacer, weakened at an exception set X
of frames: frames outside X satisfy the two membership equivalences of
the spec, frames inside X are required to be in neither index.  X is
empty for states observed between operations; during RecordAccess the
frame being admitted is the single exception. -/
structure InvX (s : RState) (X : Nat → Prop) : Prop where
  hk : 1 ≤ s.k
  hcap : 1 ≤ s.replacer_size
  bounded : ∀ f, 0 < s.record_cnt f → f ≤ s.replacer_size
  cold_mem : ∀ f, ¬ X f →
    (f ∈ s.new_frames ↔ (1 ≤ s.record_cnt f ∧ s.record_cnt f < s.k))
  warm_mem : ∀ f, ¬ X f →
    ((∃ t, (f, t) ∈ s.k_frames) ↔ s.k ≤ s.record_cnt f)
  x_cold : ∀ f, X f → f ∉ s.new_frames
  x_warm : ∀ f t, X f → (f, t) ∉ s.k_frames
  cold_nodup : s.new_frames.Nodup
  warm_nodup : (s.k_frames.map Prod.fst).Nodup
  size_eq : s.curr_size =
    s.new_frames.countP s.evictable + s.k_frames.countP (fun p => s.evictable p.1)
  warm_sorted : List.Pairwise (fun a b => a.2 ≤ b.2) s.k_frames
  hist_len : ∀ f, (s.hist f).length = min (s.record_cnt f) s.k
  warm_key : ∀ p ∈ s.k_frames, p.2 = (s.hist p.1).headD 0

/-- The internal invariant proper: no exceptional frame. -/
abbrev Inv (s : RState) : Prop := InvX s (fun _ => False)

/-- State of the replacer right before the cnt == k block of
RecordAccess runs on frame f: f sits in the cold list with its count
already equal to k. -/
structure InvP (s : RState) (f : Nat) : Prop where
  hk : 1 ≤ s.k
  hcap : 1 ≤ s.replacer_size
  bounded : ∀ g, 0 < s.record_cnt g → g ≤ s.replacer_size
  cold_mem : ∀ g, g ≠ f →
    (g ∈ s.new_frames ↔ (1 ≤ s.record_cnt g ∧ s.record_cnt g < s.k))
  warm_mem : ∀ g, g ≠ f →
    ((∃ t, (g, t) ∈ s.k_frames) ↔ s.k ≤ s.record_cnt g)
  f_cold : f ∈ s.new_frames
  f_warm : ∀ t, (f, t) ∉ s.k_frames
  f_cnt : s.record_cnt f = s.k
  cold_nodup : s.new_frames.Nodup
  warm_nodup : (s.k_frames.map Prod.fst).Nodup
  size_eq : s.curr_size =
    s.new_frames.countP s.evictable + s.k_frames.countP (fun p => s.evictable p.1)
  warm_sorted : List.Pairwise (fun a b => a.2 ≤ b.2) s.k_frames
  hist_len : ∀ g, (s.hist g).length = min (s.record_cnt g) s.k
  warm_key : ∀ p ∈ s.k_frames, p.2 = (s.hist p.1).headD 0

/-- State of the replacer right before the cnt > k block of
RecordAccess runs on frame f: the history of f holds one entry too
many and the warm key of f is stale. -/
structure InvR (s : RState) (f : Nat) : Prop where
  hk : 1 ≤ s.k
  hcap : 1 ≤ s.replacer_size
  bounded : ∀ g, 0 < s.record_cnt g → g ≤ s.replacer_size
  cold_mem : ∀ g,
    (g ∈ s.new_frames ↔ (1 ≤ s.record_cnt g ∧ s.record_cnt g < s.k))
  warm_mem : ∀ g,
    ((∃ t, (g, t) ∈ s.k_frames) ↔ s.k ≤ s.record_cnt g)
  f_cnt : s.k ≤ s.record_cnt f
  cold_nodup : s.new_frames.Nodup
  warm_nodup : (s.k_frames.map Prod.fst).Nodup
  size_eq : s.curr_size =
    s.new_frames.countP s.evictable + s.k_frames.countP (fun p => s.evictable p.1)
  warm_sorted : List.Pairwise (fun a b => a.2 ≤ b.2) s.k_frames
  hist_len : ∀ g, g ≠ f → (s.hist g).length = min (s.record_cnt g) s.k
  hist_len_f : (s.hist f).length = s.k + 1
  warm_key : ∀ p ∈ s.k_frames, p.1 ≠ f → p.2 = (s.hist p.1).headD 0

@[simp] theorem upd_self {α : Type} (m : Nat → α) (x : Nat) (v : α) : upd m x v x = v := by
  simp [upd]

@[simp] theorem upd_ne {α : Type} (m : Nat → α) {x y : Nat} (v : α) (h : y ≠ x) :
    upd m x v y = m y := by
  simp [upd, h]

theorem mem_of_mem_eraseId {f g : Nat} {l : List Nat} (h : g ∈ eraseId f l) : g ∈ l := by
  induction l with
  | nil => simpa [eraseId] using h
  | cons a as ih =>
    by_cases ha : a = f
    · simp only [eraseId, if_pos ha] at h
      exact List.mem_cons_of_mem _ h
    · simp only [eraseId, if_neg ha, List.mem_cons] at h
      rcases h with h | h
      · exact h ▸ List.mem_cons_self _ _
      · exact List.mem_cons_of_mem _ (ih h)

theorem mem_eraseId_of_ne {f g : Nat} {l : List Nat} (hne : g ≠ f) :
    g ∈ eraseId f l ↔ g ∈ l := by
  induction l with
  | nil => simp [eraseId]
  | cons a as ih =>
    by_cases ha : a = f
    · subst ha
      simp only [eraseId, if_pos rfl, List.mem_cons]
      exact ⟨fun h => Or.inr h, fun h => h.resolve_left hne⟩
    · simp only [eraseId, if_neg ha, List.mem_cons, ih]

theorem nodup_eraseId {f : Nat} {l : List Nat} (h : l.Nodup) : (eraseId f l).Nodup := by
  induction l with
  | nil => simpa [eraseId] using h
  | cons a as ih =>
    rcases List.nodup_cons.mp h with ⟨ha, has⟩
    by_cases haf : a = f
    · simpa [eraseId, if_pos haf] using has
    · simp only [eraseId, if_neg haf]
      exact List.nodup_cons.mpr ⟨fun hmem => ha (mem_of_mem_eraseId hmem), ih has⟩

theorem not_mem_eraseId_self {f : Nat} {l : List Nat} (h : l.Nodup) : f ∉ eraseId f l := by
  induction l with
  | nil => simp [eraseId]
  | cons a as ih =>
    rcases List.nodup_cons.mp h with ⟨ha, has⟩
    by_cases haf : a = f
    · subst haf
      simpa [eraseId, if_pos rfl] using ha
    · simp only [eraseId, if_neg haf, List.mem_cons]
      rintro (h1 | h1)
      · exact haf h1.symm
      · exact ih has h1

theorem countP_eraseId {f : Nat} {l : List Nat} (p : Nat → Bool) (h : f ∈ l) :
    (eraseId f l).countP p + (if p f then 1 else 0) = l.countP p := by
  induction l with
  | nil => cases h
  | cons a as ih =>
    by_cases haf : a = f
    · subst haf
      simp only [eraseId, if_pos rfl, List.countP_cons]
      by_cases hp : p a <;> simp [hp]
    · have hfa : f ∈ as := by
        rcases List.mem_cons.mp h with h1 | h1
        · exact absurd h1.symm haf
        · exact h1
      simp only [eraseId, if_neg haf, List.countP_cons]
      have := ih hfa
      by_cases hp : p a <;> simp [hp] <;> omega

theorem eraseFrame_sublist (f : Nat) (l : List (Nat × Nat)) :
    (eraseFrame f l).Sublist l := by
  induction l with
  | nil => simp [eraseFrame]
  | cons p ps ih =>
    by_cases hp : p.1 = f
    · simpa [eraseFrame, if_pos hp] using List.sublist_cons_of_sublist p (List.Sublist.refl ps)
    · simpa [eraseFrame, if_neg hp] using List.Sublist.cons₂ p ih

theorem mem_of_mem_eraseFrame {f : Nat} {q : Nat × Nat} {l : List (Nat × Nat)}
    (h : q ∈ eraseFrame f l) : q ∈ l :=
  (eraseFrame_sublist f l).subset h

theorem mem_eraseFrame_of_ne {f : Nat} {q : Nat × Nat} {l : List (Nat × Nat)}
    (hne : q.1 ≠ f) : q ∈ eraseFrame f l ↔ q ∈ l := by
  induction l with
  | nil => simp [eraseFrame]
  | cons p ps ih =>
    by_cases hp : p.1 = f
    · simp only [eraseFrame, if_pos hp, List.mem_cons]
      constructor
      · exact fun h => Or.inr h
      · rintro (h | h)
        · exact absurd (h ▸ hp) hne
        · exact h
    · simp only [eraseFrame, if_neg hp, List.mem_cons, ih]

theorem not_mem_eraseFrame_self {f : Nat} {l : List (Nat × Nat)}
    (h : (l.map Prod.fst).Nodup) (t : Nat) : (f, t) ∉ eraseFrame f l := by
  induction l with
  | nil => simp [eraseFrame]
  | cons p ps ih =>
    simp only [List.map_cons, List.nodup_cons] at h
    rcases h with ⟨hp, hps⟩
    by_cases hpf : p.1 = f
    · subst hpf
      simp only [eraseFrame, if_pos rfl]
      intro hmem
      exact hp (List.mem_map.mpr ⟨(p.1, t), hmem, rfl⟩)
    · simp only [eraseFrame, if_neg hpf, List.mem_cons]
      rintro (h1 | h1)
      · exact hpf (by rw [← h1])
      · exact ih hps h1

theorem countP_eraseFrame {f : Nat} {l : List (Nat × Nat)} (ev : Nat → Bool)
    (h : f ∈ l.map Prod.fst) :
    (eraseFrame f l).countP (fun p => ev p.1) + (if ev f then 1 else 0) =
      l.countP (fun p => ev p.1) := by
  induction l with
  | nil => cases h
  | cons p ps ih =>
    by_cases hpf : p.1 = f
    · simp only [eraseFrame, if_pos hpf, List.countP_cons, hpf]
      by_cases hp : ev f <;> simp [hp]
    · have hfs : f ∈ ps.map Prod.fst := by
        rcases List.mem_cons.mp h with h1 | h1
        · exact absurd h1.symm hpf
        · exact h1
      simp only [eraseFrame, if_neg hpf, List.countP_cons]
      have := ih hfs
      by_cases hp : ev p.1 <;> simp [hp] <;> omega

theorem insertUB_perm (x : Nat × Nat) (l : List (Nat × Nat)) :
    (insertUB x l).Perm (x :: l) := by
  induction l with
  | nil => simp [insertUB]
  | cons y ys ih =>
    by_cases hxy : x.2 < y.2
    · simp [insertUB, if_pos hxy]
    · simp only [insertUB, if_neg hxy]
      exact (ih.cons y).trans (List.Perm.swap x y ys)

theorem mem_insertUB {x q : Nat × Nat} {l : List (Nat × Nat)} :
    q ∈ insertUB x l ↔ q = x ∨ q ∈ l := by
  rw [(insertUB_perm x l).mem_iff, List.mem_cons]

theorem countP_insertUB (x : Nat × Nat) (l : List (Nat × Nat)) (p : Nat × Nat → Bool) :
    (insertUB x l).countP p = l.countP p + (if p x then 1 else 0) := by
  rw [(insertUB_perm x l).countP_eq, List.countP_cons]

theorem map_fst_insertUB_perm (x : Nat × Nat) (l : List (Nat × Nat)) :
    ((insertUB x l).map Prod.fst).Perm (x.1 :: l.map Prod.fst) :=
  (insertUB_perm x l).map Prod.fst

theorem nodup_fst_insertUB {x : Nat × Nat} {l : List (Nat × Nat)}
    (hx : x.1 ∉ l.map Prod.fst) (h : (l.map Prod.fst).Nodup) :
    ((insertUB x l).map Prod.fst).Nodup := by
  rw [(map_fst_insertUB_perm x l).nodup_iff]
  exact List.nodup_cons.mpr ⟨hx, h⟩

theorem pairwise_insertUB {x : Nat × Nat} {l : List (Nat × Nat)}
    (h : List.Pairwise (fun a b => a.2 ≤ b.2) l) :
    List.Pairwise (fun a b => a.2 ≤ b.2) (insertUB x l) := by
  induction l with
  | nil => simp [insertUB]
  | cons y ys ih =>
    rcases List.pairwise_cons.mp h with ⟨hy, hys⟩
    by_cases hxy : x.2 < y.2
    · simp only [insertUB, if_pos hxy]
      refine List.pairwise_cons.mpr ⟨?_, h⟩
      intro q hq
      rcases List.mem_cons.mp hq with h1 | h1
      · exact h1 ▸ Nat.le_of_lt hxy
      · exact Nat.le_trans (Nat.le_of_lt hxy) (hy q h1)
    · simp only [insertUB, if_neg hxy]
      refine List.pairwise_cons.mpr ⟨?_, ih hys⟩
      intro q hq
      rcases mem_insertUB.mp hq with h1 | h1
      · exact h1 ▸ Nat.le_of_not_lt hxy
      · exact hy q h1

theorem insertUB_eq_takeWhile_dropWhile (x : Nat × Nat) (l : List (Nat × Nat)) :
    insertUB x l =
      l.takeWhile (fun y => decide (y.2 ≤ x.2)) ++
        x :: l.dropWhile (fun y => decide (y.2 ≤ x.2)) := by
  induction l with
  | nil => simp [insertUB]
  | cons y ys ih =>
    by_cases hxy : x.2 < y.2
    · have hy : ¬ y.2 ≤ x.2 := Nat.not_le_of_lt hxy
      simp [insertUB, if_pos hxy, List.takeWhile_cons, List.dropWhile_cons, hy]
    · have hy : y.2 ≤ x.2 := Nat.le_of_not_lt hxy
      simp [insertUB, if_neg hxy, List.takeWhile_cons, List.dropWhile_cons, hy, ih]

theorem scanCold_eq_find (ev : Nat → Bool) (l : List Nat) :
    scanCold ev l = l.find? ev := by
  induction l with
  | nil => simp [scanCold]
  | cons a as ih =>
    by_cases ha : ev a <;> simp [scanCold, List.find?_cons, ha, ih]

theorem scanWarm_eq_find (ev : Nat → Bool) (l : List (Nat × Nat)) :
    scanWarm ev l = l.find? (fun p => ev p.1) := by
  induction l with
  | nil => simp [scanWarm]
  | cons p ps ih =>
    by_cases hp : ev p.1 <;> simp [scanWarm, List.find?_cons, hp, ih]

theorem scanCold_mem {ev : Nat → Bool} {l : List Nat} {v : Nat}
    (h : scanCold ev l = some v) : v ∈ l ∧ ev v = true := by
  rw [scanCold_eq_find] at h
  exact ⟨List.mem_of_find?_eq_some h, List.find?_some h⟩

theorem scanWarm_mem {ev : Nat → Bool} {l : List (Nat × Nat)} {p : Nat × Nat}
    (h : scanWarm ev l = some p) : p ∈ l ∧ ev p.1 = true := by
  rw [scanWarm_eq_find] at h
  exact ⟨List.mem_of_find?_eq_some h, by simpa using List.find?_some h⟩

theorem scanCold_none {ev : Nat → Bool} {l : List Nat}
    (h : scanCold ev l = none) : ∀ g ∈ l, ev g = false := by
  rw [scanCold_eq_find] at h
  intro g hg
  simpa using List.find?_eq_none.mp h g hg

theorem scanWarm_none {ev : Nat → Bool} {l : List (Nat × Nat)}
    (h : scanWarm ev l = none) : ∀ p ∈ l, ev p.1 = false := by
  rw [scanWarm_eq_find] at h
  intro p hp
  simpa using List.find?_eq_none.mp h p hp

theorem evict_zero {s : RState} (h : Size s = 0) : evict s = (s, none) := by
  simp [evict, h]

theorem evict_cold {s : RState} {v : Nat} (h : ¬ Size s = 0)
    (hc : scanCold s.evictable s.new_frames.reverse = some v) :
    evict s = ({ s with record_cnt := upd s.record_cnt v 0
                        new_frames := eraseId v s.new_frames
                        hist := upd s.hist v []
                        curr_size := s.curr_size - 1 }, some v) := by
  simp [evict, h, hc]

theorem evict_warm {s : RState} {p : Nat × Nat} (h : ¬ Size s = 0)
    (hc : scanCold s.evictable s.new_frames.reverse = none)
    (hw : scanWarm s.evictable s.k_frames = some p) :
    evict s = ({ s with record_cnt := upd s.record_cnt p.1 0
                        k_frames := eraseFrame p.1 s.k_frames
                        hist := upd s.hist p.1 []
                        curr_size := s.curr_size - 1 }, some p.1) := by
  simp [evict, h, hc, hw]

theorem evict_fail {s : RState}
    (hc : scanCold s.evictable s.new_frames.reverse = none)
    (hw : scanWarm s.evictable s.k_frames = none) : evict s = (s, none) := by
  by_cases h : Size s = 0
  · simp [evict, h]
  · simp [evict, h, hc, hw]

theorem touch_k (s : RState) (f : Nat) : (touch s f).k = s.k := rfl

theorem evict_k (s : RState) : (evict s).1.k = s.k := by
  unfold evict
  split
  · rfl
  · split
    · rfl
    · split
      · rfl
      · rfl

theorem enroll_k (s : RState) (f : Nat) : (enroll s f).k = s.k := by
  unfold enroll
  split
  · exact evict_k s
  · rfl

theorem recordAccess_invalid {s : RState} {f : Nat} (h : s.replacer_size < f) :
    recordAccess s f = (s, some Err.invalidFrame) := by
  simp [recordAccess, h]

theorem recordAccess_first {s : RState} {f : Nat} (h : ¬ s.replacer_size < f)
    (hc : s.record_cnt f = 0) (hk : 2 ≤ s.k) :
    recordAccess s f = (enroll (touch s f) f, none) := by
  have h1 : (touch s f).record_cnt f = 1 := by simp [touch, hc]
  simp only [recordAccess, if_neg h, h1, ite_true]
  rw [enroll_k, touch_k]
  rw [if_neg (by omega), if_neg (by omega)]

theorem recordAccess_first_k1 {s : RState} {f : Nat} (h : ¬ s.replacer_size < f)
    (hc : s.record_cnt f = 0) (hk : s.k = 1) :
    recordAccess s f = (promote (enroll (touch s f) f) f, none) := by
  have h1 : (touch s f).record_cnt f = 1 := by simp [touch, hc]
  simp only [recordAccess, if_neg h, h1, ite_true]
  rw [enroll_k, touch_k]
  rw [if_pos hk.symm]

theorem recordAccess_mid {s : RState} {f : Nat} (h : ¬ s.replacer_size < f)
    (hc : 1 ≤ s.record_cnt f) (hlt : s.record_cnt f + 1 < s.k) :
    recordAccess s f = (touch s f, none) := by
  have h1 : (touch s f).record_cnt f = s.record_cnt f + 1 := by simp [touch]
  have hne : ¬ (s.record_cnt f + 1 = 1) := by omega
  simp only [recordAccess, if_neg h, h1, if_neg hne]
  rw [touch_k]
  rw [if_neg (by omega), if_neg (by omega)]

theorem recordAccess_promote {s : RState} {f : Nat} (h : ¬ s.replacer_size < f)
    (hc : 1 ≤ s.record_cnt f) (heq : s.record_cnt f + 1 = s.k) :
    recordAccess s f = (promote (touch s f) f, none) := by
  have h1 : (touch s f).record_cnt f = s.record_cnt f + 1 := by simp [touch]
  have hne : ¬ (s.record_cnt f + 1 = 1) := by omega
  simp only [recordAccess, if_neg h, h1, if_neg hne]
  rw [touch_k]
  rw [if_pos heq]

theorem recordAccess_reposition {s : RState} {f : Nat} (h : ¬ s.replacer_size < f)
    (hk : 1 ≤ s.k) (hc : s.k ≤ s.record_cnt f) :
    recordAccess s f = (reposition (touch s f) f, none) := by
  have h1 : (touch s f).record_cnt f = s.record_cnt f + 1 := by simp [touch]
  have hne : ¬ (s.record_cnt f + 1 = 1) := by omega
  simp only [recordAccess, if_neg h, h1, if_neg hne]
  rw [touch_k]
  rw [if_neg (by omega), if_pos (by omega)]

theorem setEvictable_zero {s : RState} {f : Nat} {v : Bool} (h : s.record_cnt f = 0) :
    setEvictable s f v = s := by
  simp [setEvictable, h]

theorem setEvictable_spec {s : RState} {f : Nat} {v : Bool} (h : ¬ s.record_cnt f = 0) :
    setEvictable s f v =
      { s with evictable := upd s.evictable f v
               max_size := if s.evictable f = v then s.max_size
                 else if v = true then s.max_size + 1 else s.max_size - 1
               curr_size := if s.evictable f = v then s.curr_size
                 else if v = true then s.curr_size + 1 else s.curr_size - 1 } := by
  cases hev : s.evictable f <;> cases v <;>
    simp [setEvictable, h, hev]

theorem remove_invalid {s : RState} {f : Nat} (h : s.replacer_size < f) :
    remove s f = (s, some Err.invalidFrame) := by
  simp [remove, h]

theorem remove_zero {s : RState} {f : Nat} (h : ¬ s.replacer_size < f)
    (hc : s.record_cnt f = 0) : remove s f = (s, none) := by
  simp [remove, h, hc]

theorem remove_pinned {s : RState} {f : Nat} (h : ¬ s.replacer_size < f)
    (hc : ¬ s.record_cnt f = 0) (hev : s.evictable f = false) :
    remove s f = (s, some Err.illegalRemoval) := by
  simp [remove, h, hc, hev]

theorem remove_cold {s : RState} {f : Nat} (h : ¬ s.replacer_size < f)
    (hc : ¬ s.record_cnt f = 0) (hev : s.evictable f = true)
    (hlt : s.record_cnt f < s.k) :
    remove s f = ({ s with new_frames := eraseId f s.new_frames
                           record_cnt := upd s.record_cnt f 0
                           hist := upd s.hist f []
                           curr_size := s.curr_size - 1 }, none) := by
  simp [remove, h, hc, hev, hlt]

theorem remove_warm {s : RState} {f : Nat} (h : ¬ s.replacer_size < f)
    (hc : ¬ s.record_cnt f = 0) (hev : s.evictable f = true)
    (hge : ¬ s.record_cnt f < s.k) :
    remove s f = ({ s with k_frames := eraseFrame f s.k_frames
                           record_cnt := upd s.record_cnt f 0
                           hist := upd s.hist f []
                           curr_size := s.curr_size - 1 }, none) := by
  simp [remove, h, hc, hev, hge]

theorem countP_upd_mem {l : List Nat} {f : Nat} (hnd : l.Nodup) (hf : f ∈ l)
    (ev : Nat → Bool) (v : Bool) :
    l.countP (upd ev f v) + (if ev f then 1 else 0) =
      l.countP ev + (if v then 1 else 0) := by
  induction l with
  | nil => cases hf
  | cons a as ih =>
    rcases List.nodup_cons.mp hnd with ⟨ha, has⟩
    by_cases haf : a = f
    · subst haf
      have hcongr : as.countP (upd ev a v) = as.countP ev :=
        List.countP_congr (fun x hx => by
          have hxa : x ≠ a := fun hh => ha (hh ▸ hx)
          simp [upd, hxa])
      simp only [List.countP_cons, hcongr, upd_self]
      by_cases hev : ev a <;> by_cases hv : v <;> simp [hev, hv]
    · have hfs : f ∈ as := (List.mem_cons.mp hf).resolve_left (fun hh => haf hh.symm)
      have hupd : upd ev f v a = ev a := upd_ne ev v haf
      simp only [List.countP_cons, hupd]
      have := ih has hfs
      by_cases hev : ev a <;> simp [hev] <;> omega

theorem evict_none_eq {s : RState} (h : (evict s).2 = none) : (evict s).1 = s := by
  by_cases h0 : Size s = 0
  · rw [evict_zero h0]
  · cases hc : scanCold s.evictable s.new_frames.reverse with
    | some v =>
      rw [evict_cold h0 hc] at h
      simp at h
    | none =>
      cases hw : scanWarm s.evictable s.k_frames with
      | some p =>
        rw [evict_warm h0 hc hw] at h
        simp at h
      | none =>
        rw [evict_fail hc hw]

theorem evict_untouched {s : RState} {g : Nat} (hg_cold : g ∉ s.new_frames)
    (hg_warm : ∀ t, (g, t) ∉ s.k_frames) :
    (evict s).1.record_cnt g = s.record_cnt g ∧ (evict s).1.hist g = s.hist g := by
  by_cases h0 : Size s = 0
  · rw [evict_zero h0]
    exact ⟨rfl, rfl⟩
  cases hc : scanCold s.evictable s.new_frames.reverse with
  | some v =>
    rw [evict_cold h0 hc]
    obtain ⟨hvmem', _⟩ := scanCold_mem hc
    have hvmem : v ∈ s.new_frames := List.mem_reverse.mp hvmem'
    have hgv : g ≠ v := fun hh => hg_cold (hh ▸ hvmem)
    exact ⟨upd_ne _ _ hgv, upd_ne _ _ hgv⟩
  | none =>
    cases hw : scanWarm s.evictable s.k_frames with
    | some p =>
      rw [evict_warm h0 hc hw]
      obtain ⟨hpmem, _⟩ := scanWarm_mem hw
      have hgp : g ≠ p.1 := by
        intro hh
        exact hg_warm p.2 (by rw [hh]; simpa using hpmem)
      exact ⟨upd_ne _ _ hgp, upd_ne _ _ hgp⟩
    | none =>
      rw [evict_fail hc hw]
      exact ⟨rfl, rfl⟩

theorem erase_cold_presX {s : RState} {X : Nat → Prop} (hs : InvX s X) {v : Nat}
    (hvmem : v ∈ s.new_frames) (hvev : s.evictable v = true) :
    InvX { s with record_cnt := upd s.record_cnt v 0
                  new_frames := eraseId v s.new_frames
                  hist := upd s.hist v []
                  curr_size := s.curr_size - 1 } X := by
  have hXv : ¬ X v := fun hX => hs.x_cold v hX hvmem
  have hv_cnt := (hs.cold_mem v hXv).mp hvmem
  have hv_warm : ∀ t, (v, t) ∉ s.k_frames := by
    intro t ht
    have := (hs.warm_mem v hXv).mp ⟨t, ht⟩
    omega
  refine
    { hk := hs.hk
      hcap := hs.hcap
      bounded := ?_
      cold_mem := ?_
      warm_mem := ?_
      x_cold := ?_
      x_warm := hs.x_warm
      cold_nodup := nodup_eraseId hs.cold_nodup
      warm_nodup := hs.warm_nodup
      size_eq := ?_
      warm_sorted := hs.warm_sorted
      hist_len := ?_
      warm_key := ?_ }
  · intro g hg
    simp only [] at hg
    by_cases hgv : g = v
    · subst hgv
      rw [upd_self] at hg
      omega
    · rw [upd_ne _ _ hgv] at hg
      exact hs.bounded g hg
  · intro g hXg
    simp only []
    by_cases hgv : g = v
    · subst hgv
      rw [upd_self]
      constructor
      · intro hmem
        exact absurd hmem (not_mem_eraseId_self hs.cold_nodup)
      · intro hcnt
        omega
    · rw [mem_eraseId_of_ne hgv, upd_ne _ _ hgv]
      exact hs.cold_mem g hXg
  · intro g hXg
    simp only []
    by_cases hgv : g = v
    · subst hgv
      rw [upd_self]
      constructor
      · rintro ⟨t, ht⟩
        exact absurd ht (hv_warm t)
      · intro hcnt
        have := hs.hk
        omega
    · rw [upd_ne _ _ hgv]
      exact hs.warm_mem g hXg
  · intro g hXg hmem
    simp only [] at hmem
    exact hs.x_cold g hXg (mem_of_mem_eraseId hmem)
  · simp only []
    have h1 := countP_eraseId s.evictable hvmem
    simp [hvev] at h1
    have h2 := hs.size_eq
    omega
  · intro g
    simp only []
    by_cases hgv : g = v
    · subst hgv
      rw [upd_self, upd_self]
      simp
    · rw [upd_ne _ _ hgv, upd_ne _ _ hgv]
      exact hs.hist_len g
  · intro p hp
    simp only [] at hp ⊢
    have hpv : p.1 ≠ v := by
      intro hh
      have hpmem : (p.1, p.2) ∈ s.k_frames := by simpa using hp
      rw [hh] at hpmem
      exact hv_warm p.2 hpmem
    rw [upd_ne _ _ hpv]
    exact hs.warm_key p hp
theorem erase_warm_presX {s : RState} {X : Nat → Prop} (hs : InvX s X) {v t0 : Nat}
    (hpmem' : (v, t0) ∈ s.k_frames) (hvev : s.evictable v = true) :
    InvX { s with record_cnt := upd s.record_cnt v 0
                  k_frames := eraseFrame v s.k_frames
                  hist := upd s.hist v []
                  curr_size := s.curr_size - 1 } X := by
  have hXp : ¬ X v := fun hX => hs.x_warm v t0 hX hpmem'
  have hp_cnt : s.k ≤ s.record_cnt v := (hs.warm_mem v hXp).mp ⟨t0, hpmem'⟩
  have hp_cold : v ∉ s.new_frames := by
    intro hmem
    have := (hs.cold_mem v hXp).mp hmem
    omega
  refine
    { hk := hs.hk
      hcap := hs.hcap
      bounded := ?_
      cold_mem := ?_
      warm_mem := ?_
      x_cold := hs.x_cold
      x_warm := ?_
      cold_nodup := hs.cold_nodup
      warm_nodup :=
        List.Nodup.sublist ((eraseFrame_sublist v s.k_frames).map Prod.fst)
          hs.warm_nodup
      size_eq := ?_
      warm_sorted := List.Pairwise.sublist (eraseFrame_sublist v s.k_frames)
        hs.warm_sorted
      hist_len := ?_
      warm_key := ?_ }
  · intro g hg
    simp only [] at hg
    by_cases hgp : g = v
    · subst hgp
      rw [upd_self] at hg
      omega
    · rw [upd_ne _ _ hgp] at hg
      exact hs.bounded g hg
  · intro g hXg
    simp only []
    by_cases hgp : g = v
    · subst hgp
      rw [upd_self]
      constructor
      · intro hmem
        exact absurd hmem hp_cold
      · intro hcnt
        omega
    · rw [upd_ne _ _ hgp]
      exact hs.cold_mem g hXg
  · intro g hXg
    simp only []
    by_cases hgp : g = v
    · subst hgp
      rw [upd_self]
      constructor
      · rintro ⟨t, ht⟩
        exact absurd ht (not_mem_eraseFrame_self hs.warm_nodup t)
      · intro hcnt
        have := hs.hk
        omega
    · rw [upd_ne _ _ hgp]
      constructor
      · rintro ⟨t, ht⟩
        exact (hs.warm_mem g hXg).mp
          ⟨t, mem_of_mem_eraseFrame ht⟩
      · intro hcnt
        obtain ⟨t, ht⟩ := (hs.warm_mem g hXg).mpr hcnt
        exact ⟨t, (mem_eraseFrame_of_ne (q := (g, t)) hgp).mpr ht⟩
  · intro g t hXg ht
    simp only [] at ht
    exact hs.x_warm g t hXg (mem_of_mem_eraseFrame ht)
  · simp only []
    have hfst : v ∈ s.k_frames.map Prod.fst := List.mem_map.mpr ⟨(v, t0), hpmem', rfl⟩
    have h1 := countP_eraseFrame s.evictable hfst
    simp [hvev] at h1
    have h2 := hs.size_eq
    omega
  · intro g
    simp only []
    by_cases hgp : g = v
    · subst hgp
      rw [upd_self, upd_self]
      simp
    · rw [upd_ne _ _ hgp, upd_ne _ _ hgp]
      exact hs.hist_len g
  · intro q hq
    simp only [] at hq ⊢
    have hqp : q.1 ≠ v := by
      intro hh
      have hq' : (q.1, q.2) ∈ eraseFrame v s.k_frames := by simpa using hq
      rw [hh] at hq'
      exact not_mem_eraseFrame_self hs.warm_nodup q.2 hq'
    rw [upd_ne _ _ hqp]
    exact hs.warm_key q (mem_of_mem_eraseFrame hq)

theorem countP_upd_not_mem {l : List Nat} {f : Nat} (hf : f ∉ l)
    (ev : Nat → Bool) (v : Bool) :
    l.countP (upd ev f v) = l.countP ev :=
  List.countP_congr (fun x hx => by
    have hxf : x ≠ f := fun hh => hf (hh ▸ hx)
    simp [upd, hxf])

theorem countP_fst_upd_mem {l : List (Nat × Nat)} {f : Nat}
    (hnd : (l.map Prod.fst).Nodup) (hf : f ∈ l.map Prod.fst)
    (ev : Nat → Bool) (v : Bool) :
    l.countP (fun p => upd ev f v p.1) + (if ev f then 1 else 0) =
      l.countP (fun p => ev p.1) + (if v then 1 else 0) := by
  have e1 : l.countP (fun p => upd ev f v p.1) =
      (l.map Prod.fst).countP (upd ev f v) := by
    rw [List.countP_map]
    rfl
  have e2 : l.countP (fun p => ev p.1) = (l.map Prod.fst).countP ev := by
    rw [List.countP_map]
    rfl
  rw [e1, e2]
  exact countP_upd_mem hnd hf ev v

theorem countP_fst_upd_not_mem {l : List (Nat × Nat)} {f : Nat}
    (hf : f ∉ l.map Prod.fst) (ev : Nat → Bool) (v : Bool) :
    l.countP (fun p => upd ev f v p.1) = l.countP (fun p => ev p.1) :=
  List.countP_congr (fun q hq => by
    have hqf : q.1 ≠ f := fun hh => hf (List.mem_map.mpr ⟨q, hq, hh⟩)
    simp [upd, hqf])

theorem evict_presX {s : RState} {X : Nat → Prop} (hs : InvX s X) :
    InvX (evict s).1 X := by
  by_cases h0 : Size s = 0
  · rw [evict_zero h0]
    exact hs
  cases hc : scanCold s.evictable s.new_frames.reverse with
  | some v =>
    rw [evict_cold h0 hc]
    obtain ⟨hvmem', hvev⟩ := scanCold_mem hc
    exact erase_cold_presX hs (List.mem_reverse.mp hvmem') hvev
  | none =>
    cases hw : scanWarm s.evictable s.k_frames with
    | some p =>
      rw [evict_warm h0 hc hw]
      obtain ⟨hpmem, hpev⟩ := scanWarm_mem hw
      exact erase_warm_presX hs (by simpa using hpmem) hpev
    | none =>
      rw [evict_fail hc hw]
      exact hs

theorem setEvictable_pres {s : RState} (f : Nat) (v : Bool) (hs : Inv s) :
    Inv (setEvictable s f v) := by
  by_cases h0 : s.record_cnt f = 0
  · rw [setEvictable_zero h0]
    exact hs
  rw [setEvictable_spec h0]
  refine
    { hk := hs.hk
      hcap := hs.hcap
      bounded := hs.bounded
      cold_mem := hs.cold_mem
      warm_mem := hs.warm_mem
      x_cold := hs.x_cold
      x_warm := hs.x_warm
      cold_nodup := hs.cold_nodup
      warm_nodup := hs.warm_nodup
      size_eq := ?_
      warm_sorted := hs.warm_sorted
      hist_len := hs.hist_len
      warm_key := hs.warm_key }
  simp only []
  have hcnt1 : 1 ≤ s.record_cnt f := Nat.one_le_iff_ne_zero.mpr h0
  have h2 := hs.size_eq
  by_cases hfk : s.record_cnt f < s.k
  · have hfcold : f ∈ s.new_frames :=
      (hs.cold_mem f not_false).mpr ⟨hcnt1, hfk⟩
    have hfwarm : f ∉ s.k_frames.map Prod.fst := by
      intro hmem
      obtain ⟨p, hp, hpf⟩ := List.mem_map.mp hmem
      have hex : ∃ t, (f, t) ∈ s.k_frames :=
        ⟨p.2, by rw [← hpf]; simpa using hp⟩
      have := (hs.warm_mem f not_false).mp hex
      omega
    have e1 := countP_upd_mem hs.cold_nodup hfcold s.evictable v
    have e2 := countP_fst_upd_not_mem hfwarm s.evictable v
    cases hev : s.evictable f <;> cases v <;>
      simp [hev] at e1 ⊢ <;> omega
  · have hfw_cnt : s.k ≤ s.record_cnt f := by omega
    obtain ⟨t0, ht0⟩ := (hs.warm_mem f not_false).mpr hfw_cnt
    have hfwarm : f ∈ s.k_frames.map Prod.fst :=
      List.mem_map.mpr ⟨(f, t0), ht0, rfl⟩
    have hfcold : f ∉ s.new_frames := by
      intro hmem
      have := (hs.cold_mem f not_false).mp hmem
      omega
    have e1 := countP_fst_upd_mem hs.warm_nodup hfwarm s.evictable v
    have e2 := countP_upd_not_mem hfcold s.evictable v
    cases hev : s.evictable f <;> cases v <;>
      simp [hev] at e1 ⊢ <;> omega

theorem remove_pres {s : RState} (f : Nat) (hs : Inv s) : Inv (remove s f).1 := by
  by_cases h : s.replacer_size < f
  · rw [remove_invalid h]
    exact hs
  by_cases hc : s.record_cnt f = 0
  · rw [remove_zero h hc]
    exact hs
  cases hev : s.evictable f with
  | false =>
    rw [remove_pinned h hc hev]
    exact hs
  | true =>
    by_cases hlt : s.record_cnt f < s.k
    · rw [remove_cold h hc hev hlt]
      have hfcold : f ∈ s.new_frames :=
        (hs.cold_mem f not_false).mpr ⟨Nat.one_le_iff_ne_zero.mpr hc, hlt⟩
      exact erase_cold_presX hs hfcold hev
    · rw [remove_warm h hc hev hlt]
      obtain ⟨t0, ht0⟩ := (hs.warm_mem f not_false).mpr (by omega)
      exact erase_warm_presX hs ht0 hev

theorem not_mem_warm_of_cnt_lt {s : RState} {f : Nat} (hs : Inv s)
    (hlt : s.record_cnt f < s.k) : ∀ t, (f, t) ∉ s.k_frames := by
  intro t ht
  have := (hs.warm_mem f not_false).mp ⟨t, ht⟩
  omega

theorem touch_invx {s : RState} {f : Nat} (hs : Inv s)
    (hc : s.record_cnt f = 0) (hb : f ≤ s.replacer_size) :
    InvX (touch s f) (fun g => g = f) := by
  have hf_cold : f ∉ s.new_frames := by
    intro hmem
    have := (hs.cold_mem f not_false).mp hmem
    omega
  have hf_warm : ∀ t, (f, t) ∉ s.k_frames :=
    not_mem_warm_of_cnt_lt hs (by have := hs.hk; omega)
  unfold touch
  refine
    { hk := hs.hk
      hcap := hs.hcap
      bounded := ?_
      cold_mem := ?_
      warm_mem := ?_
      x_cold := ?_
      x_warm := ?_
      cold_nodup := hs.cold_nodup
      warm_nodup := hs.warm_nodup
      size_eq := hs.size_eq
      warm_sorted := hs.warm_sorted
      hist_len := ?_
      warm_key := ?_ }
  · intro g hg
    simp only [] at hg
    by_cases hgf : g = f
    · subst hgf
      exact hb
    · rw [upd_ne _ _ hgf] at hg
      exact hs.bounded g hg
  · intro g hgf
    simp only []
    rw [upd_ne _ _ hgf]
    exact hs.cold_mem g not_false
  · intro g hgf
    simp only []
    rw [upd_ne _ _ hgf]
    exact hs.warm_mem g not_false
  · intro g hgf
    subst hgf
    exact hf_cold
  · intro g t hgf
    subst hgf
    exact hf_warm t
  · intro g
    simp only []
    by_cases hgf : g = f
    · subst hgf
      rw [upd_self, upd_self]
      have h1 := hs.hist_len g
      have h2 := hs.hk
      simp only [hc, Nat.min_zero, List.length_eq_zero] at h1
      simp [h1]
      omega
    · rw [upd_ne _ _ hgf, upd_ne _ _ hgf]
      exact hs.hist_len g
  · intro p hp
    simp only [] at hp ⊢
    have hpf : p.1 ≠ f := by
      intro hh
      have hpmem : (p.1, p.2) ∈ s.k_frames := by simpa using hp
      rw [hh] at hpmem
      exact hf_warm p.2 hpmem
    rw [upd_ne _ _ hpf]
    exact hs.warm_key p hp

theorem touch_mid_inv {s : RState} {f : Nat} (hs : Inv s)
    (hc : 1 ≤ s.record_cnt f) (hlt : s.record_cnt f + 1 < s.k) :
    Inv (touch s f) := by
  have hf_cold : f ∈ s.new_frames :=
    (hs.cold_mem f not_false).mpr ⟨hc, by omega⟩
  have hf_warm : ∀ t, (f, t) ∉ s.k_frames :=
    not_mem_warm_of_cnt_lt hs (by omega)
  unfold touch
  refine
    { hk := hs.hk
      hcap := hs.hcap
      bounded := ?_
      cold_mem := ?_
      warm_mem := ?_
      x_cold := fun g h => h.elim
      x_warm := fun g t h => h.elim
      cold_nodup := hs.cold_nodup
      warm_nodup := hs.warm_nodup
      size_eq := hs.size_eq
      warm_sorted := hs.warm_sorted
      hist_len := ?_
      warm_key := ?_ }
  · intro g hg
    simp only [] at hg
    by_cases hgf : g = f
    · subst hgf
      exact hs.bounded g (by omega)
    · rw [upd_ne _ _ hgf] at hg
      exact hs.bounded g hg
  · intro g _
    simp only []
    by_cases hgf : g = f
    · subst hgf
      rw [upd_self]
      constructor
      · intro _
        exact ⟨by omega, by omega⟩
      · intro _
        exact hf_cold
    · rw [upd_ne _ _ hgf]
      exact hs.cold_mem g not_false
  · intro g _
    simp only []
    by_cases hgf : g = f
    · subst hgf
      rw [upd_self]
      constructor
      · rintro ⟨t, ht⟩
        exact absurd ht (hf_warm t)
      · intro hcnt
        omega
    · rw [upd_ne _ _ hgf]
      exact hs.warm_mem g not_false
  · intro g
    simp only []
    by_cases hgf : g = f
    · subst hgf
      rw [upd_self, upd_self]
      have h1 := hs.hist_len g
      simp [List.length_append]
      omega
    · rw [upd_ne _ _ hgf, upd_ne _ _ hgf]
      exact hs.hist_len g
  · intro p hp
    simp only [] at hp ⊢
    have hpf : p.1 ≠ f := by
      intro hh
      have hpmem : (p.1, p.2) ∈ s.k_frames := by simpa using hp
      rw [hh] at hpmem
      exact hf_warm p.2 hpmem
    rw [upd_ne _ _ hpf]
    exact hs.warm_key p hp

theorem touch_invp {s : RState} {f : Nat} (hs : Inv s)
    (hc : 1 ≤ s.record_cnt f) (heq : s.record_cnt f + 1 = s.k) :
    InvP (touch s f) f := by
  have hf_cold : f ∈ s.new_frames :=
    (hs.cold_mem f not_false).mpr ⟨hc, by omega⟩
  have hf_warm : ∀ t, (f, t) ∉ s.k_frames :=
    not_mem_warm_of_cnt_lt hs (by omega)
  unfold touch
  refine
    { hk := hs.hk
      hcap := hs.hcap
      bounded := ?_
      cold_mem := ?_
      warm_mem := ?_
      f_cold := hf_cold
      f_warm := ?_
      f_cnt := ?_
      cold_nodup := hs.cold_nodup
      warm_nodup := hs.warm_nodup
      size_eq := hs.size_eq
      warm_sorted := hs.warm_sorted
      hist_len := ?_
      warm_key := ?_ }
  · intro g hg
    simp only [] at hg
    by_cases hgf : g = f
    · subst hgf
      exact hs.bounded g (by omega)
    · rw [upd_ne _ _ hgf] at hg
      exact hs.bounded g hg
  · intro g hgf
    simp only []
    rw [upd_ne _ _ hgf]
    exact hs.cold_mem g not_false
  · intro g hgf
    simp only []
    rw [upd_ne _ _ hgf]
    exact hs.warm_mem g not_false
  · intro t
    exact hf_warm t
  · simp only []
    rw [upd_self]
    exact heq
  · intro g
    simp only []
    by_cases hgf : g = f
    · subst hgf
      rw [upd_self, upd_self]
      have h1 := hs.hist_len g
      simp [List.length_append]
      omega
    · rw [upd_ne _ _ hgf, upd_ne _ _ hgf]
      exact hs.hist_len g
  · intro p hp
    simp only [] at hp ⊢
    have hpf : p.1 ≠ f := by
      intro hh
      have hpmem : (p.1, p.2) ∈ s.k_frames := by simpa using hp
      rw [hh] at hpmem
      exact hf_warm p.2 hpmem
    rw [upd_ne _ _ hpf]
    exact hs.warm_key p hp

theorem touch_invr {s : RState} {f : Nat} (hs : Inv s)
    (hge : s.k ≤ s.record_cnt f) : InvR (touch s f) f := by
  have hf_cold : f ∉ s.new_frames := by
    intro hmem
    have := (hs.cold_mem f not_false).mp hmem
    omega
  unfold touch
  refine
    { hk := hs.hk
      hcap := hs.hcap
      bounded := ?_
      cold_mem := ?_
      warm_mem := ?_
      f_cnt := ?_
      cold_nodup := hs.cold_nodup
      warm_nodup := hs.warm_nodup
      size_eq := hs.size_eq
      warm_sorted := hs.warm_sorted
      hist_len := ?_
      hist_len_f := ?_
      warm_key := ?_ }
  · intro g hg
    simp only [] at hg
    by_cases hgf : g = f
    · subst hgf
      exact hs.bounded g (by have := hs.hk; omega)
    · rw [upd_ne _ _ hgf] at hg
      exact hs.bounded g hg
  · intro g
    simp only []
    by_cases hgf : g = f
    · subst hgf
      rw [upd_self]
      constructor
      · intro hmem
        exact absurd hmem hf_cold
      · intro hcnt
        omega
    · rw [upd_ne _ _ hgf]
      exact hs.cold_mem g not_false
  · intro g
    simp only []
    by_cases hgf : g = f
    · subst hgf
      rw [upd_self]
      constructor
      · intro _
        omega
      · intro _
        exact (hs.warm_mem g not_false).mpr hge
    · rw [upd_ne _ _ hgf]
      exact hs.warm_mem g not_false
  · simp only []
    rw [upd_self]
    omega
  · intro g hgf
    simp only []
    rw [upd_ne _ _ hgf, upd_ne _ _ hgf]
    exact hs.hist_len g
  · simp only []
    rw [upd_self]
    have h1 := hs.hist_len f
    simp [List.length_append]
    omega
  · intro p hp hpf
    simp only [] at hp ⊢
    rw [upd_ne _ _ hpf]
    exact hs.warm_key p hp

theorem push_cold_invx {u : RState} {f : Nat} (hu : InvX u (fun g => g = f))
    (hcnt : u.record_cnt f = 1) :
    (2 ≤ u.k → Inv { u with evictable := upd u.evictable f true
                            curr_size := u.curr_size + 1
                            new_frames := f :: u.new_frames }) ∧
    (u.k = 1 → InvP { u with evictable := upd u.evictable f true
                             curr_size := u.curr_size + 1
                             new_frames := f :: u.new_frames } f) := by
  have hf_cold : f ∉ u.new_frames := hu.x_cold f rfl
  have hf_warm : ∀ t, (f, t) ∉ u.k_frames := fun t => hu.x_warm f t rfl
  have hf_fst : f ∉ u.k_frames.map Prod.fst := by
    intro hmem
    obtain ⟨p, hp, hpf⟩ := List.mem_map.mp hmem
    exact hf_warm p.2 (by rw [← hpf]; simpa using hp)
  have hsize : u.curr_size + 1 =
      (f :: u.new_frames).countP (upd u.evictable f true) +
        u.k_frames.countP (fun p => upd u.evictable f true p.1) := by
    rw [List.countP_cons]
    rw [countP_upd_not_mem hf_cold, countP_fst_upd_not_mem hf_fst]
    have h2 := hu.size_eq
    simp [upd_self]
    omega
  have hkey : ∀ p ∈ u.k_frames, p.2 = (u.hist p.1).headD 0 := hu.warm_key
  constructor
  · intro hk2
    refine
      { hk := hu.hk
        hcap := hu.hcap
        bounded := hu.bounded
        cold_mem := ?_
        warm_mem := ?_
        x_cold := fun g h => h.elim
        x_warm := fun g t h => h.elim
        cold_nodup := List.nodup_cons.mpr ⟨hf_cold, hu.cold_nodup⟩
        warm_nodup := hu.warm_nodup
        size_eq := hsize
        warm_sorted := hu.warm_sorted
        hist_len := hu.hist_len
        warm_key := hkey }
    · intro g _
      simp only []
      by_cases hgf : g = f
      · subst hgf
        simp only [List.mem_cons, true_or, hcnt]
        constructor
        · intro _
          exact ⟨by omega, by omega⟩
        · intro _
          trivial
      · rw [List.mem_cons]
        constructor
        · rintro (h1 | h1)
          · exact absurd h1 hgf
          · exact (hu.cold_mem g hgf).mp h1
        · intro h1
          exact Or.inr ((hu.cold_mem g hgf).mpr h1)
    · intro g _
      by_cases hgf : g = f
      · subst hgf
        simp only []
        constructor
        · rintro ⟨t, ht⟩
          exact absurd ht (hf_warm t)
        · intro hc2
          rw [hcnt] at hc2
          omega
      · exact hu.warm_mem g hgf
  · intro hk1
    refine
      { hk := hu.hk
        hcap := hu.hcap
        bounded := hu.bounded
        cold_mem := ?_
        warm_mem := fun g hgf => hu.warm_mem g hgf
        f_cold := List.mem_cons_self f u.new_frames
        f_warm := hf_warm
        f_cnt := by simp only []; omega
        cold_nodup := List.nodup_cons.mpr ⟨hf_cold, hu.cold_nodup⟩
        warm_nodup := hu.warm_nodup
        size_eq := hsize
        warm_sorted := hu.warm_sorted
        hist_len := hu.hist_len
        warm_key := hkey }
    intro g hgf
    simp only []
    rw [List.mem_cons]
    constructor
    · rintro (h1 | h1)
      · exact absurd h1 hgf
      · exact (hu.cold_mem g hgf).mp h1
    · intro h1
      exact Or.inr ((hu.cold_mem g hgf).mpr h1)

theorem enroll_presX {s : RState} {f : Nat} (hs : InvX s (fun g => g = f))
    (hcnt : s.record_cnt f = 1) :
    (2 ≤ s.k → Inv (enroll s f)) ∧ (s.k = 1 → InvP (enroll s f) f) := by
  unfold enroll
  by_cases hfull : s.curr_size = s.replacer_size
  · rw [if_pos hfull]
    have hE : InvX (evict s).1 (fun g => g = f) := evict_presX hs
    have hunt := evict_untouched (hs.x_cold f rfl) (fun t => hs.x_warm f t rfl)
    have hcntE : (evict s).1.record_cnt f = 1 := by rw [hunt.1]; exact hcnt
    have hkE : (evict s).1.k = s.k := evict_k s
    constructor
    · intro hk2
      exact (push_cold_invx hE hcntE).1 (by rw [hkE]; exact hk2)
    · intro hk1
      exact (push_cold_invx hE hcntE).2 (by rw [hkE]; exact hk1)
  · rw [if_neg hfull]
    exact push_cold_invx hs hcnt

theorem promote_pres {s : RState} {f : Nat} (hp : InvP s f) :
    Inv (promote s f) := by
  have hf_fst : f ∉ s.k_frames.map Prod.fst := by
    intro hmem
    obtain ⟨p, hpm, hpf⟩ := List.mem_map.mp hmem
    exact hp.f_warm p.2 (by rw [← hpf]; simpa using hpm)
  unfold promote
  refine
    { hk := hp.hk
      hcap := hp.hcap
      bounded := hp.bounded
      cold_mem := ?_
      warm_mem := ?_
      x_cold := fun g h => h.elim
      x_warm := fun g t h => h.elim
      cold_nodup := nodup_eraseId hp.cold_nodup
      warm_nodup := nodup_fst_insertUB hf_fst hp.warm_nodup
      size_eq := ?_
      warm_sorted := pairwise_insertUB hp.warm_sorted
      hist_len := hp.hist_len
      warm_key := ?_ }
  · intro g _
    simp only []
    by_cases hgf : g = f
    · subst hgf
      constructor
      · intro hmem
        exact absurd hmem (not_mem_eraseId_self hp.cold_nodup)
      · intro hc2
        rw [hp.f_cnt] at hc2
        omega
    · rw [mem_eraseId_of_ne hgf]
      exact hp.cold_mem g hgf
  · intro g _
    simp only []
    by_cases hgf : g = f
    · subst hgf
      constructor
      · intro _
        rw [hp.f_cnt]
      · intro _
        exact ⟨(s.hist g).headD 0, mem_insertUB.mpr (Or.inl rfl)⟩
    · constructor
      · rintro ⟨t, ht⟩
        rcases mem_insertUB.mp ht with h1 | h1
        · exact absurd (congrArg Prod.fst h1) hgf
        · exact (hp.warm_mem g hgf).mp ⟨t, h1⟩
      · intro h1
        obtain ⟨t, ht⟩ := (hp.warm_mem g hgf).mpr h1
        exact ⟨t, mem_insertUB.mpr (Or.inr ht)⟩
  · simp only []
    rw [countP_insertUB]
    have h1 := countP_eraseId s.evictable hp.f_cold
    have h3 := hp.size_eq
    cases hev : s.evictable f <;>
      simp [hev] at h1 ⊢ <;> omega
  · intro p hpi
    simp only [] at hpi ⊢
    rcases mem_insertUB.mp hpi with h1 | h1
    · rw [h1]
    · exact hp.warm_key p h1

theorem reposition_pres {s : RState} {f : Nat} (hr : InvR s f) :
    Inv (reposition s f) := by
  obtain ⟨t0, ht0⟩ := hr.warm_mem f |>.mpr hr.f_cnt
  have hf_fst : f ∈ s.k_frames.map Prod.fst := List.mem_map.mpr ⟨(f, t0), ht0, rfl⟩
  have hf_not_erased : f ∉ (eraseFrame f s.k_frames).map Prod.fst := by
    intro hmem
    obtain ⟨p, hpm, hpf⟩ := List.mem_map.mp hmem
    have hq : (p.1, p.2) ∈ eraseFrame f s.k_frames := by simpa using hpm
    rw [hpf] at hq
    exact not_mem_eraseFrame_self hr.warm_nodup p.2 hq
  have hnodupE : ((eraseFrame f s.k_frames).map Prod.fst).Nodup :=
    List.Nodup.sublist ((eraseFrame_sublist f s.k_frames).map Prod.fst) hr.warm_nodup
  unfold reposition
  refine
    { hk := hr.hk
      hcap := hr.hcap
      bounded := hr.bounded
      cold_mem := fun g _ => hr.cold_mem g
      warm_mem := ?_
      x_cold := fun g h => h.elim
      x_warm := fun g t h => h.elim
      cold_nodup := hr.cold_nodup
      warm_nodup := nodup_fst_insertUB hf_not_erased hnodupE
      size_eq := ?_
      warm_sorted := pairwise_insertUB
        (List.Pairwise.sublist (eraseFrame_sublist f s.k_frames) hr.warm_sorted)
      hist_len := ?_
      warm_key := ?_ }
  · intro g _
    simp only []
    by_cases hgf : g = f
    · subst hgf
      constructor
      · intro _
        exact hr.f_cnt
      · intro _
        refine ⟨_, mem_insertUB.mpr (Or.inl rfl)⟩
    · constructor
      · rintro ⟨t, ht⟩
        rcases mem_insertUB.mp ht with h1 | h1
        · exact absurd (congrArg Prod.fst h1) hgf
        · exact (hr.warm_mem g).mp ⟨t, mem_of_mem_eraseFrame h1⟩
      · intro h1
        obtain ⟨t, ht⟩ := (hr.warm_mem g).mpr h1
        exact ⟨t, mem_insertUB.mpr (Or.inr ((mem_eraseFrame_of_ne (q := (g, t)) hgf).mpr ht))⟩
  · simp only []
    rw [countP_insertUB]
    have h1 := countP_eraseFrame s.evictable hf_fst
    have h3 := hr.size_eq
    cases hev : s.evictable f <;>
      simp [hev] at h1 ⊢ <;> omega
  · intro g
    simp only []
    by_cases hgf : g = f
    · subst hgf
      rw [upd_self]
      have h1 := hr.hist_len_f
      have h2 := hr.f_cnt
      simp [List.length_tail]
      omega
    · rw [upd_ne _ _ hgf]
      exact hr.hist_len g hgf
  · intro p hpi
    simp only [] at hpi ⊢
    rcases mem_insertUB.mp hpi with h1 | h1
    · rw [h1]
    · have hpf : p.1 ≠ f := by
        intro hh
        have hq : (p.1, p.2) ∈ eraseFrame f s.k_frames := by simpa using h1
        rw [hh] at hq
        exact not_mem_eraseFrame_self hr.warm_nodup p.2 hq
      rw [upd_ne _ _ hpf]
      exact hr.warm_key p (mem_of_mem_eraseFrame h1) hpf

theorem inv_init {cap k : Nat} (hcap : 1 ≤ cap) (hk : 1 ≤ k) : Inv (init cap k) := by
  refine
    { hk := hk
      hcap := hcap
      bounded := ?_
      cold_mem := ?_
      warm_mem := ?_
      x_cold := fun g h => h.elim
      x_warm := fun g t h => h.elim
      cold_nodup := List.nodup_nil
      warm_nodup := List.nodup_nil
      size_eq := rfl
      warm_sorted := List.Pairwise.nil
      hist_len := ?_
      warm_key := ?_ }
  · intro g hg
    simp [init] at hg
  · intro g _
    simp [init]
  · intro g _
    simp [init]
    omega
  · intro g
    simp [init]
  · intro p hp
    simp [init] at hp

theorem recordAccess_pres {s : RState} (f : Nat) (hs : Inv s) :
    Inv (recordAccess s f).1 := by
  by_cases h : s.replacer_size < f
  · rw [recordAccess_invalid h]
    exact hs
  by_cases hc0 : s.record_cnt f = 0
  · have ht := touch_invx hs hc0 (by omega)
    have hcnt : (touch s f).record_cnt f = 1 := by simp [touch, hc0]
    by_cases hk1 : s.k = 1
    · rw [recordAccess_first_k1 h hc0 hk1]
      exact promote_pres ((enroll_presX ht hcnt).2 (by rw [touch_k]; exact hk1))
    · have hk2 : 2 ≤ s.k := by have := hs.hk; omega
      rw [recordAccess_first h hc0 hk2]
      exact (enroll_presX ht hcnt).1 (by rw [touch_k]; exact hk2)
  · have hc1 : 1 ≤ s.record_cnt f := by omega
    by_cases hlt : s.record_cnt f + 1 < s.k
    · rw [recordAccess_mid h hc1 hlt]
      exact touch_mid_inv hs hc1 hlt
    · by_cases heq : s.record_cnt f + 1 = s.k
      · rw [recordAccess_promote h hc1 heq]
        exact promote_pres (touch_invp hs hc1 heq)
      · have hge : s.k ≤ s.record_cnt f := by have := hs.hk; omega
        rw [recordAccess_reposition h hs.hk hge]
        exact reposition_pres (touch_invr hs hge)

theorem reachable_inv {s : RState} (h : Reachable s) : Inv s := by
  induction h with
  | base cap k hcap hk => exact inv_init hcap hk
  | record s f _ ih => exact recordAccess_pres f ih
  | evictStep s _ ih => exact evict_presX ih
  | setEv s f v _ ih => exact setEvictable_pres f v ih
  | removeStep s f _ ih => exact remove_pres f ih

theorem reach_ex1 : Reachable ex1 :=
  Reachable.record (init 2 2) 0 (Reachable.base 2 2 (by decide) (by decide))

theorem reach_ex2 : Reachable ex2 := Reachable.record ex1 1 reach_ex1

theorem reach_ex5 : Reachable ex5 := Reachable.record ex1 0 reach_ex1

theorem reach_ex7 : Reachable ex7 := Reachable.record ex1 2 reach_ex1

theorem inv_union_mem {s : RState} (h : Inv s) (g : Nat) :
    g ∈ s.new_frames ++ s.k_frames.map Prod.fst ↔ 0 < s.record_cnt g := by
  rw [List.mem_append]
  constructor
  · rintro (h1 | h1)
    · have := (h.cold_mem g not_false).mp h1
      omega
    · obtain ⟨p, hp, hpf⟩ := List.mem_map.mp h1
      have hex : ∃ t, (g, t) ∈ s.k_frames := ⟨p.2, by rw [← hpf]; simpa using hp⟩
      have h2 := (h.warm_mem g not_false).mp hex
      have h3 := h.hk
      omega
  · intro h1
    by_cases hlt : s.record_cnt g < s.k
    · exact Or.inl ((h.cold_mem g not_false).mpr ⟨by omega, hlt⟩)
    · obtain ⟨t, ht⟩ := (h.warm_mem g not_false).mpr (by omega)
      exact Or.inr (List.mem_map.mpr ⟨(g, t), ht, rfl⟩)

theorem inv_union_nodup {s : RState} (h : Inv s) :
    (s.new_frames ++ s.k_frames.map Prod.fst).Nodup := by
  rw [List.nodup_append]
  refine ⟨h.cold_nodup, h.warm_nodup, ?_⟩
  intro g hg1 hg2
  have hc := (h.cold_mem g not_false).mp hg1
  obtain ⟨p, hp, hpf⟩ := List.mem_map.mp hg2
  have hex : ∃ t, (g, t) ∈ s.k_frames := ⟨p.2, by rw [← hpf]; simpa using hp⟩
  have hw := (h.warm_mem g not_false).mp hex
  omega

theorem evict_some_of_size_pos {s : RState} (h : Inv s) (hpos : 0 < Size s) :
    ∃ v, (evict s).2 = some v := by
  have h0 : ¬ Size s = 0 := by omega
  cases hc : scanCold s.evictable s.new_frames.reverse with
  | some v =>
    rw [evict_cold h0 hc]
    exact ⟨v, rfl⟩
  | none =>
    cases hw : scanWarm s.evictable s.k_frames with
    | some p =>
      rw [evict_warm h0 hc hw]
      exact ⟨p.1, rfl⟩
    | none =>
      exfalso
      have hcold := scanCold_none hc
      have hwarm := scanWarm_none hw
      have h1 : s.new_frames.countP s.evictable = 0 :=
        List.countP_eq_zero.mpr
          (fun g hg => by simp [hcold g (List.mem_reverse.mpr hg)])
      have h2 : s.k_frames.countP (fun p => s.evictable p.1) = 0 :=
        List.countP_eq_zero.mpr (fun p hp => by simp [hwarm p hp])
      have h3 := h.size_eq
      simp only [Size] at hpos
      omega

theorem evict_congr {s s' : RState}
    (h1 : s'.curr_size = s.curr_size) (h2 : s'.new_frames = s.new_frames)
    (h3 : s'.k_frames = s.k_frames) (h4 : s'.evictable = s.evictable) :
    (evict s').2 = (evict s).2 ∧
    (evict s').1.curr_size = (evict s).1.curr_size ∧
    (evict s').1.new_frames = (evict s).1.new_frames ∧
    (evict s').1.k_frames = (evict s).1.k_frames ∧
    (evict s').1.evictable = (evict s).1.evictable := by
  by_cases h0 : Size s = 0
  · have h0' : Size s' = 0 := by
      simp only [Size] at h0 ⊢
      rw [h1]
      exact h0
    rw [evict_zero h0, evict_zero h0']
    exact ⟨rfl, h1, h2, h3, h4⟩
  · have h0' : ¬ Size s' = 0 := by
      simp only [Size] at h0 ⊢
      rw [h1]
      exact h0
    cases hc : scanCold s.evictable s.new_frames.reverse with
    | some v =>
      have hc' : scanCold s'.evictable s'.new_frames.reverse = some v := by
        rw [h2, h4]
        exact hc
      rw [evict_cold h0 hc, evict_cold h0' hc']
      exact ⟨rfl, by simp [h1], by simp [h2], by simp [h3], by simp [h4]⟩
    | none =>
      have hc' : scanCold s'.evictable s'.new_frames.reverse = none := by
        rw [h2, h4]
        exact hc
      cases hw : scanWarm s.evictable s.k_frames with
      | some p =>
        have hw' : scanWarm s'.evictable s'.k_frames = some p := by
          rw [h3, h4]
          exact hw
        rw [evict_warm h0 hc hw, evict_warm h0' hc' hw']
        exact ⟨rfl, by simp [h1], by simp [h2], by simp [h3], by simp [h4]⟩
      | none =>
        have hw' : scanWarm s'.evictable s'.k_frames = none := by
          rw [h3, h4]
          exact hw
        rw [evict_fail hc hw, evict_fail hc' hw']
        exact ⟨rfl, h1, h2, h3, h4⟩

/-- C3: after every completed operation, every frame with access count
in the interval from 1 up to but excluding K is in the cold index and
not the warm index, every frame with access count at least K is in the
warm index and not the cold index, and every frame with access count 0
is in neither index. -/
theorem C3_index_membership {s : RState} (hs : Reachable s) :
    ∀ f, (1 ≤ s.record_cnt f ∧ s.record_cnt f < s.k →
            f ∈ s.new_frames ∧ ∀ t, (f, t) ∉ s.k_frames) ∧
         (s.k ≤ s.record_cnt f →
            (∃ t, (f, t) ∈ s.k_frames) ∧ f ∉ s.new_frames) ∧
         (s.record_cnt f = 0 →
            f ∉ s.new_frames ∧ ∀ t, (f, t) ∉ s.k_frames) := by
  have h := reachable_inv hs
  intro f
  refine ⟨?_, ?_, ?_⟩
  · rintro ⟨h1, h2⟩
    refine ⟨(h.cold_mem f not_false).mpr ⟨h1, h2⟩, ?_⟩
    intro t ht
    have := (h.warm_mem f not_false).mp ⟨t, ht⟩
    omega
  · intro h1
    refine ⟨(h.warm_mem f not_false).mpr h1, ?_⟩
    intro hmem
    have := (h.cold_mem f not_false).mp hmem
    omega
  · intro h0
    have hk := h.hk
    constructor
    · intro hmem
      have := (h.cold_mem f not_false).mp hmem
      omega
    · intro t ht
      have := (h.warm_mem f not_false).mp ⟨t, ht⟩
      omega

/-- C3 witness: in the concrete state ex5 (capacity 2, k 2, frame 0
accessed twice), frame 0 has count 2 at least k and sits in the warm
index but not the cold index. -/
theorem C3_witness :
    ex5.k ≤ ex5.record_cnt 0 ∧ (∃ t, (0, t) ∈ ex5.k_frames) ∧ 0 ∉ ex5.new_frames := by
  have h := ((C3_index_membership reach_ex5) 0).2.1 (by decide)
  exact ⟨by decide, h.1, h.2⟩

/-- C4: after every completed operation, Size() equals the number of
frames whose access count is positive and whose evictable flag is set
(all such frames have ids at most the capacity, since the range check
admits ids up to and including it). -/
theorem C4_size_eq {s : RState} (hs : Reachable s) :
    Size s = ((Finset.range (s.replacer_size + 1)).filter
      (fun g => 0 < s.record_cnt g ∧ s.evictable g = true)).card := by
  have h := reachable_inv hs
  have hlen : Size s =
      ((s.new_frames ++ s.k_frames.map Prod.fst).filter s.evictable).length := by
    rw [← List.countP_eq_length_filter, List.countP_append, List.countP_map]
    exact h.size_eq
  have hnodupL : ((s.new_frames ++ s.k_frames.map Prod.fst).filter s.evictable).Nodup :=
    (inv_union_nodup h).filter _
  have hFin : ((s.new_frames ++ s.k_frames.map Prod.fst).filter s.evictable).toFinset =
      (Finset.range (s.replacer_size + 1)).filter
        (fun g => 0 < s.record_cnt g ∧ s.evictable g = true) := by
    ext g
    rw [List.mem_toFinset, List.mem_filter, inv_union_mem h,
      Finset.mem_filter, Finset.mem_range]
    constructor
    · rintro ⟨h1, h2⟩
      have := h.bounded g h1
      exact ⟨by omega, h1, h2⟩
    · rintro ⟨_, h1, h2⟩
      exact ⟨h1, h2⟩
  rw [hlen, ← List.toFinset_card_of_nodup hnodupL, hFin]

/-- C4 witness: in the concrete state ex2 (capacity 2, k 2, frames 0
and 1 accessed once each), Size is 2 and equals the number of
evictable accessed frames. -/
theorem C4_witness :
    Size ex2 = 2 ∧
    Size ex2 = ((Finset.range (ex2.replacer_size + 1)).filter
      (fun g => 0 < ex2.record_cnt g ∧ ex2.evictable g = true)).card :=
  ⟨by decide, C4_size_eq reach_ex2⟩

/-- C5: after every completed operation the warm index is sorted
ascending by key, each stored key is the frame's K-th most recent
timestamp (the head of its K-length history), and the insertion routine
used by RecordAccess places a new entry after every existing entry
whose key is at most the new key; in particular an entry with an equal
key goes after the existing ones, so ties keep insertion order. -/
theorem C5_warm_sorted_stable {s : RState} (hs : Reachable s) :
    List.Pairwise (fun a b => a.2 ≤ b.2) s.k_frames ∧
    (∀ p ∈ s.k_frames,
      p.2 = (s.hist p.1).headD 0 ∧ (s.hist p.1).length = s.k) ∧
    (∀ (x : Nat × Nat) (l : List (Nat × Nat)),
      insertUB x l =
        l.takeWhile (fun y => decide (y.2 ≤ x.2)) ++
          x :: l.dropWhile (fun y => decide (y.2 ≤ x.2))) := by
  have h := reachable_inv hs
  refine ⟨h.warm_sorted, ?_, insertUB_eq_takeWhile_dropWhile⟩
  intro p hp
  refine ⟨h.warm_key p hp, ?_⟩
  have hcnt : s.k ≤ s.record_cnt p.1 :=
    (h.warm_mem p.1 not_false).mp ⟨p.2, by simpa using hp⟩
  have := h.hist_len p.1
  omega

/-- C5 witness: in the concrete state ex5 the warm index is the single
pair of frame 0 keyed by timestamp 1, is sorted, and the key is the
head of the 2-entry history of frame 0. -/
theorem C5_witness :
    ex5.k_frames = [(0, 1)] ∧
    List.Pairwise (fun a b => a.2 ≤ b.2) ex5.k_frames ∧
    (0, 1).2 = (ex5.hist 0).headD 0 := by
  have h := C5_warm_sorted_stable reach_ex5
  have hm : (0, 1) ∈ ex5.k_frames := by decide
  exact ⟨by decide, h.1, (h.2.1 (0, 1) hm).1⟩

/-- C10: on reachable states, whenever Size() is positive at the start
of Evict the search always finds a victim, and Evict reports no victim
exactly when Size() is 0, so the trailing failure return after the two
index scans is unreachable. -/
theorem C10_evict_total {s : RState} (hs : Reachable s) :
    (0 < Size s → ((evict s).2).isSome = true) ∧
    (Size s = 0 → (evict s).2 = none) := by
  have h := reachable_inv hs
  constructor
  · intro hpos
    obtain ⟨v, hv⟩ := evict_some_of_size_pos h hpos
    rw [hv]
    rfl
  · intro h0
    rw [evict_zero h0]

/-- C10 witness: the concrete state ex2 has positive Size and Evict
finds a victim there. -/
theorem C10_witness : 0 < Size ex2 ∧ ((evict ex2).2).isSome = true :=
  ⟨by decide, (C10_evict_total reach_ex2).1 (by decide)⟩

/-- C1: on a reachable state with positive Size, Evict returns the
first evictable frame of the cold list scanned from its least-recent
end (the reverse of the list, whose front is the most-recent end),
and only when no evictable cold frame exists the first evictable frame
of the warm list in ascending key order (the list order, by C5); on
success the chosen frame's history is cleared, its count reset to 0,
it is removed from the indexes, and Size decreases by exactly 1. -/
theorem C1_evict_search {s : RState} (hs : Reachable s) (h0 : ¬ Size s = 0) :
    ((evict s).2 = match s.new_frames.reverse.find? s.evictable with
      | some v => some v
      | none => (s.k_frames.find? (fun p => s.evictable p.1)).map Prod.fst) ∧
    (∀ v, (evict s).2 = some v →
      (evict s).1.hist v = [] ∧
      (evict s).1.record_cnt v = 0 ∧
      v ∉ (evict s).1.new_frames ∧
      (∀ t, (v, t) ∉ (evict s).1.k_frames) ∧
      Size (evict s).1 + 1 = Size s) := by
  have h := reachable_inv hs
  cases hc : scanCold s.evictable s.new_frames.reverse with
  | some w =>
    rw [evict_cold h0 hc]
    have hfind := hc
    rw [scanCold_eq_find] at hfind
    obtain ⟨hwmem', hwev⟩ := scanCold_mem hc
    have hwmem : w ∈ s.new_frames := List.mem_reverse.mp hwmem'
    have hwcnt := (h.cold_mem w not_false).mp hwmem
    constructor
    · rw [hfind]
    · intro v hv
      have hvw : v = w := by
        simpa using hv.symm
      subst hvw
      refine ⟨by simp, by simp, ?_, ?_, ?_⟩
      · simp only []
        exact not_mem_eraseId_self h.cold_nodup
      · intro t ht
        simp only [] at ht
        have := (h.warm_mem v not_false).mp ⟨t, ht⟩
        omega
      · simp only [Size] at h0 ⊢
        omega
  | none =>
    have hfindc := hc
    rw [scanCold_eq_find] at hfindc
    cases hw : scanWarm s.evictable s.k_frames with
    | some p =>
      rw [evict_warm h0 hc hw]
      have hfindw := hw
      rw [scanWarm_eq_find] at hfindw
      obtain ⟨hpmem, hpev⟩ := scanWarm_mem hw
      have hpcnt : s.k ≤ s.record_cnt p.1 :=
        (h.warm_mem p.1 not_false).mp ⟨p.2, by simpa using hpmem⟩
      constructor
      · rw [hfindc, hfindw]
        rfl
      · intro v hv
        have hvp : v = p.1 := by
          simpa using hv.symm
        refine ⟨?_, ?_, ?_, ?_, ?_⟩
        · rw [hvp]
          simp
        · rw [hvp]
          simp
        · rw [hvp]
          simp only []
          intro hmem
          have := (h.cold_mem p.1 not_false).mp hmem
          omega
        · intro t
          rw [hvp]
          intro ht
          simp only [] at ht
          exact not_mem_eraseFrame_self h.warm_nodup t ht
        · simp only [Size] at h0 ⊢
          omega
    | none =>
      rw [evict_fail hc hw]
      have hfindw := hw
      rw [scanWarm_eq_find] at hfindw
      constructor
      · rw [hfindc, hfindw]
        rfl
      · intro v hv
        cases hv

/-- C1 witness: in the concrete state ex2 (cold list holds frames 1
then 0, both evictable), Evict picks frame 0, the least recent, clears
its bookkeeping, and Size drops from 2 to 1. -/
theorem C1_witness :
    (evict ex2).2 = some 0 ∧
    (evict ex2).1.record_cnt 0 = 0 ∧
    Size (evict ex2).1 + 1 = Size ex2 := by
  have h := C1_evict_search reach_ex2 (by decide)
  have h1 : (evict ex2).2 = some 0 := by
    rw [h.1]
    decide
  have h2 := h.2 0 h1
  exact ⟨h1, h2.2.1, h2.2.2.2.2⟩

/-- C6: for a valid frame id on a reachable state, Remove is a no-op
when the frame's access count is 0; it fails with IllegalRemoval and
leaves the state unchanged when the frame was accessed but is
non-evictable; otherwise it clears the frame's history, resets its
count to 0, removes it from the indexes, and decreases Size by exactly
1. -/
theorem C6_remove_cases {s : RState} (hs : Reachable s) {f : Nat}
    (hf : f < s.replacer_size) :
    (s.record_cnt f = 0 → remove s f = (s, none)) ∧
    (s.record_cnt f ≠ 0 → s.evictable f = false →
      remove s f = (s, some Err.illegalRemoval)) ∧
    (s.record_cnt f ≠ 0 → s.evictable f = true →
      (remove s f).2 = none ∧
      (remove s f).1.hist f = [] ∧
      (remove s f).1.record_cnt f = 0 ∧
      f ∉ (remove s f).1.new_frames ∧
      (∀ t, (f, t) ∉ (remove s f).1.k_frames) ∧
      Size (remove s f).1 + 1 = Size s) := by
  have h := reachable_inv hs
  have hvalid : ¬ s.replacer_size < f := by omega
  refine ⟨fun hc => remove_zero hvalid hc, fun hc hev => remove_pinned hvalid hc hev, ?_⟩
  intro hc hev
  by_cases hlt : s.record_cnt f < s.k
  · rw [remove_cold hvalid hc hev hlt]
    have hfcold : f ∈ s.new_frames :=
      (h.cold_mem f not_false).mpr ⟨by omega, hlt⟩
    have hpos : 0 < s.new_frames.countP s.evictable :=
      List.countP_pos_iff.mpr ⟨f, hfcold, hev⟩
    have hsz := h.size_eq
    refine ⟨rfl, by simp, by simp, ?_, ?_, ?_⟩
    · simp only []
      exact not_mem_eraseId_self h.cold_nodup
    · intro t ht
      simp only [] at ht
      have := (h.warm_mem f not_false).mp ⟨t, ht⟩
      omega
    · simp only [Size]
      omega
  · rw [remove_warm hvalid hc hev hlt]
    obtain ⟨t0, ht0⟩ := (h.warm_mem f not_false).mpr (by omega)
    have hpos : 0 < s.k_frames.countP (fun p => s.evictable p.1) :=
      List.countP_pos_iff.mpr ⟨(f, t0), ht0, hev⟩
    have hsz := h.size_eq
    refine ⟨rfl, by simp, by simp, ?_, ?_, ?_⟩
    · simp only []
      intro hmem
      have := (h.cold_mem f not_false).mp hmem
      omega
    · intro t ht
      simp only [] at ht
      exact not_mem_eraseFrame_self h.warm_nodup t ht
    · simp only [Size]
      omega

/-- C6 witness: in the concrete state ex5 (only frame 0 accessed),
removing the never-accessed frame 1 is a no-op, and removing the
accessed evictable frame 0 succeeds and decrements Size. -/
theorem C6_witness :
    (remove ex5 1 = (ex5, none)) ∧
    (remove ex5 0).2 = none ∧
    (remove ex5 0).1.record_cnt 0 = 0 ∧
    Size (remove ex5 0).1 + 1 = Size ex5 := by
  have ha := (C6_remove_cases reach_ex5 (f := 1) (by decide)).1 (by decide)
  have hb := (C6_remove_cases reach_ex5 (f := 0) (by decide)).2.2 (by decide) (by decide)
  exact ⟨ha, hb.1, hb.2.2.1, hb.2.2.2.2.2⟩

/-- C9: SetEvictable is a no-op when the frame's access count is 0 (a
never-accessed or fully cleared frame); otherwise it sets only the
frame's evictable flag, leaves every other flag, the histories, the
counts, both indexes and the clock unchanged, and adjusts Size by plus
or minus exactly 1 when the flag value changes and not at all
otherwise; hence a second call with the same flag leaves Size
unchanged. -/
theorem C9_setEvictable_effect {s : RState} (hs : Reachable s) (f : Nat) (v : Bool) :
    (s.record_cnt f = 0 → setEvictable s f v = s) ∧
    (s.record_cnt f ≠ 0 →
      (setEvictable s f v).evictable f = v ∧
      (∀ g, g ≠ f → (setEvictable s f v).evictable g = s.evictable g) ∧
      (setEvictable s f v).hist = s.hist ∧
      (setEvictable s f v).record_cnt = s.record_cnt ∧
      (setEvictable s f v).new_frames = s.new_frames ∧
      (setEvictable s f v).k_frames = s.k_frames ∧
      (setEvictable s f v).current_timestamp = s.current_timestamp ∧
      (s.evictable f = v → Size (setEvictable s f v) = Size s) ∧
      (s.evictable f = false → v = true → Size (setEvictable s f v) = Size s + 1) ∧
      (s.evictable f = true → v = false → Size (setEvictable s f v) + 1 = Size s)) ∧
    Size (setEvictable (setEvictable s f v) f v) = Size (setEvictable s f v) := by
  have h := reachable_inv hs
  refine ⟨fun hc => setEvictable_zero hc, ?_, ?_⟩
  · intro hc
    rw [setEvictable_spec hc]
    refine ⟨by simp, ?_, rfl, rfl, rfl, rfl, rfl, ?_, ?_, ?_⟩
    · intro g hgf
      simp only []
      exact upd_ne _ _ hgf
    · intro hev
      simp [Size, hev]
    · intro hev hv
      subst hv
      simp [Size, hev]
    · intro hev hv
      subst hv
      simp [Size, hev]
      have hcnt1 : 1 ≤ s.record_cnt f := Nat.one_le_iff_ne_zero.mpr hc
      have hsz := h.size_eq
      by_cases hlt : s.record_cnt f < s.k
      · have hfcold : f ∈ s.new_frames :=
          (h.cold_mem f not_false).mpr ⟨hcnt1, hlt⟩
        have hpos : 0 < s.new_frames.countP s.evictable :=
          List.countP_pos_iff.mpr ⟨f, hfcold, hev⟩
        omega
      · obtain ⟨t0, ht0⟩ := (h.warm_mem f not_false).mpr (by omega)
        have hpos : 0 < s.k_frames.countP (fun p => s.evictable p.1) :=
          List.countP_pos_iff.mpr ⟨(f, t0), ht0, hev⟩
        omega
  · by_cases hc : s.record_cnt f = 0
    · rw [setEvictable_zero hc, setEvictable_zero hc]
    · have h1 := setEvictable_spec (v := v) hc
      have hc2 : (setEvictable s f v).record_cnt f ≠ 0 := by
        rw [h1]
        exact hc
      have hev2 : (setEvictable s f v).evictable f = v := by
        rw [h1]
        simp
      rw [setEvictable_spec hc2, hev2]
      simp [Size]

/-- C9 witness: in the concrete state ex2, pinning frame 0 flips only
its flag and drops Size from 2 to 1, and pinning it again changes
nothing. -/
theorem C9_witness :
    Size (setEvictable ex2 0 false) + 1 = Size ex2 ∧
    (setEvictable ex2 0 false).k_frames = ex2.k_frames ∧
    Size (setEvictable (setEvictable ex2 0 false) 0 false) =
      Size (setEvictable ex2 0 false) := by
  have h := C9_setEvictable_effect reach_ex2 0 false
  have h2 := h.2.1 (by decide)
  exact ⟨h2.2.2.2.2.2.2.2.2.2 (by decide) rfl, h2.2.2.2.2.2.1, h.2.2⟩

/-- C2 counterexample: the claim demands failure for every frame id at
least the capacity, but the range check of the code is strict, so the
frame id equal to the capacity (here 2, on a capacity-2 replacer) is
admitted: RecordAccess does not raise InvalidFrame and mutates the
state (the clock advances from 0 to 1), and Remove on that frame does
not raise InvalidFrame either. -/
theorem C2_counterexample :
    (recordAccess (init 2 2) 2).2 ≠ some Err.invalidFrame ∧
    (recordAccess (init 2 2) 2).1.current_timestamp ≠ (init 2 2).current_timestamp ∧
    (remove ((recordAccess (init 2 2) 2).1) 2).2 ≠ some Err.invalidFrame := by
  refine ⟨by decide, by decide, by decide⟩

/-- C2 amended: for every frame id strictly greater than the capacity,
RecordAccess and Remove fail with InvalidFrame, and the failure is
detected before any mutation, so the whole replacer state (histories,
counts, indexes, flags, clock, size) is returned unchanged. -/
theorem C2_invalid_frame (s : RState) (f : Nat) (h : s.replacer_size < f) :
    recordAccess s f = (s, some Err.invalidFrame) ∧
    remove s f = (s, some Err.invalidFrame) :=
  ⟨recordAccess_invalid h, remove_invalid h⟩

/-- C2 witness: a capacity-2 replacer rejects frame 5 in both
operations, returning the state unchanged. -/
theorem C2_witness :
    (init 2 2).replacer_size < 5 ∧
    recordAccess (init 2 2) 5 = (init 2 2, some Err.invalidFrame) ∧
    remove (init 2 2) 5 = (init 2 2, some Err.invalidFrame) :=
  ⟨by decide, C2_invalid_frame (init 2 2) 5 (by decide)⟩

/-- C8 counterexample: on a replacer of capacity 1 with k 1, the call
RecordAccess(5) does not succeed: 5 exceeds the capacity, so the call
fails with InvalidFrame, contrary to the claim's parenthetical. -/
theorem C8_counterexample :
    (recordAccess (init 1 1) 5).2 = some Err.invalidFrame := by decide

/-- C8 amended: on a replacer of capacity 1 with k 1, RecordAccess(5)
fails with InvalidFrame and leaves the state unchanged, the following
SetEvictable(5, false) is a no-op on the never-accessed frame 5, and
Evict() then reports no victim (Size is still 0). -/
theorem C8_scenario :
    recordAccess (init 1 1) 5 = (init 1 1, some Err.invalidFrame) ∧
    setEvictable (init 1 1) 5 false = init 1 1 ∧
    (evict (init 1 1)).2 = none := by
  refine ⟨recordAccess_invalid (by decide), setEvictable_zero (by decide), ?_⟩
  rw [evict_zero (by decide)]

theorem evict_victim_cleared {u : RState} {w : Nat} (hw : (evict u).2 = some w) :
    (evict u).1.record_cnt w = 0 ∧ (evict u).1.hist w = [] := by
  by_cases h0 : Size u = 0
  · rw [evict_zero h0] at hw
    cases hw
  cases hc : scanCold u.evictable u.new_frames.reverse with
  | some x =>
    rw [evict_cold h0 hc] at hw ⊢
    have hxw : x = w := by simpa using hw
    subst hxw
    exact ⟨by simp, by simp⟩
  | none =>
    cases hww : scanWarm u.evictable u.k_frames with
    | some p =>
      rw [evict_warm h0 hc hww] at hw ⊢
      have hpw : p.1 = w := by simpa using hw
      refine ⟨?_, ?_⟩
      · rw [← hpw]
        simp
      · rw [← hpw]
        simp
    | none =>
      rw [evict_fail hc hww] at hw
      cases hw

/-- C7 counterexample: take a replacer of capacity 1 with k 1, access
frame 1 (admitted because the range check is strict), so Size equals
the capacity and the valid frame 0 has count 0; RecordAccess(0) then
succeeds, but frame 0 is not in the cold index afterwards: with k = 1
the same call also runs the cnt == k block and moves the frame on to
the warm index, so the claim's final clause fails as stated. -/
theorem C7_counterexample :
    (recordAccess (init 1 1) 1).1.record_cnt 0 = 0 ∧
    Size (recordAccess (init 1 1) 1).1 = (recordAccess (init 1 1) 1).1.replacer_size ∧
    (recordAccess (recordAccess (init 1 1) 1).1 0).2 = none ∧
    0 ∉ (recordAccess (recordAccess (init 1 1) 1).1 0).1.new_frames := by
  refine ⟨by decide, by decide, by decide, by decide⟩

/-- C7 amended: on a reachable state where a valid frame has access
count 0 and Size equals the capacity, RecordAccess on that frame first
evicts one victim by the normal Evict search, then marks the frame
evictable, increments Size relative to the post-eviction state, and
pushes the frame on the most-recent end of the cold list when K is at
least 2; when K is 1, the first access is already the K-th, so within
the same call the frame moves on to the warm index instead and the cold
list is exactly the post-eviction one. -/
theorem C7_first_access_full {s : RState} (hs : Reachable s) {f : Nat}
    (hcnt : s.record_cnt f = 0) (hf : f < s.replacer_size)
    (hfull : Size s = s.replacer_size) :
    ∃ v, (evict s).2 = some v ∧
      (recordAccess s f).2 = none ∧
      (recordAccess s f).1.evictable f = true ∧
      (recordAccess s f).1.record_cnt f = 1 ∧
      (recordAccess s f).1.record_cnt v = 0 ∧
      Size (recordAccess s f).1 = Size (evict s).1 + 1 ∧
      (2 ≤ s.k → (recordAccess s f).1.new_frames = f :: (evict s).1.new_frames) ∧
      (s.k = 1 → (recordAccess s f).1.new_frames = (evict s).1.new_frames ∧
        ∃ t, (f, t) ∈ (recordAccess s f).1.k_frames) := by
  have h := reachable_inv hs
  have hvalid : ¬ s.replacer_size < f := by omega
  have hpos : 0 < Size s := by
    have := h.hcap
    simp only [Size] at hfull ⊢
    omega
  obtain ⟨v, hv⟩ := evict_some_of_size_pos h hpos
  have hcong := @evict_congr s (touch s f) rfl rfl rfl rfl
  have hvT : (evict (touch s f)).2 = some v := by
    rw [hcong.1]
    exact hv
  have hf_cold : f ∉ (touch s f).new_frames := by
    have : f ∉ s.new_frames := by
      intro hmem
      have := (h.cold_mem f not_false).mp hmem
      omega
    exact this
  have hf_warm : ∀ t, (f, t) ∉ (touch s f).k_frames := by
    intro t ht
    have hmem : (f, t) ∈ s.k_frames := ht
    have := (h.warm_mem f not_false).mp ⟨t, hmem⟩
    have := h.hk
    omega
  have hunt := evict_untouched hf_cold hf_warm
  have htc : (touch s f).record_cnt f = 1 := by
    simp [touch, hcnt]
  have hEcnt : (evict (touch s f)).1.record_cnt f = 1 := by
    rw [hunt.1]
    exact htc
  have hfull' : (touch s f).curr_size = (touch s f).replacer_size := by
    simp only [Size] at hfull
    exact hfull
  have hvictim := evict_victim_cleared hvT
  have hvf : v ≠ f := by
    intro hh
    rw [hh] at hvictim
    omega
  have henroll : enroll (touch s f) f =
      { (evict (touch s f)).1 with
          evictable := upd (evict (touch s f)).1.evictable f true
          curr_size := (evict (touch s f)).1.curr_size + 1
          new_frames := f :: (evict (touch s f)).1.new_frames } := by
    unfold enroll
    rw [if_pos hfull']
  refine ⟨v, hv, ?_⟩
  by_cases hk1 : s.k = 1
  · rw [recordAccess_first_k1 hvalid hcnt hk1, henroll]
    unfold promote
    refine ⟨rfl, by simp, ?_, ?_, ?_, ?_, ?_⟩
    · simp only []
      rw [hEcnt]
    · simp only []
      rw [hvictim.1]
    · simp only [Size]
      rw [hcong.2.1]
    · intro hk2
      omega
    · intro _
      constructor
      · simp only [eraseId, ite_true]
        exact hcong.2.2.1
      · exact ⟨_, mem_insertUB.mpr (Or.inl rfl)⟩
  · have hk2 : 2 ≤ s.k := by
      have := h.hk
      omega
    rw [recordAccess_first hvalid hcnt hk2, henroll]
    refine ⟨rfl, by simp, ?_, ?_, ?_, ?_, ?_⟩
    · simp only []
      rw [hEcnt]
    · simp only []
      rw [hvictim.1]
    · simp only [Size]
      rw [hcong.2.1]
    · intro _
      simp only []
      rw [hcong.2.2.1]
    · intro hk1'
      omega

/-- C7 witness: in the concrete full state ex7 (capacity 2, frames 0
and 2 tracked), recording the first access to the valid unseen frame 1
succeeds, marks it evictable, and yields Size one above the
post-eviction state. -/
theorem C7_witness :
    (recordAccess ex7 1).2 = none ∧
    (recordAccess ex7 1).1.evictable 1 = true ∧
    Size (recordAccess ex7 1).1 = Size (evict ex7).1 + 1 := by
  obtain ⟨v, hv, h1, h2, h3, h4, h5, h6, h7⟩ :=
    C7_first_access_full reach_ex7 (f := 1) (by decide) (by decide) (by decide)
  exact ⟨h1, h2, h5⟩

end LRUK
